import Mathlib

/-!
Shallow embedding of the translation pipeline in `scripts/translate.js` of
generatywnie.com, together with proofs about its validation and
orchestration behaviour.

Modelling conventions (all argued at the definition they concern):

* JS strings are Lean `String`s; `s.length` (UTF-16 code units in JS) is
  modelled by the code-point count, which coincides on the basic
  multilingual plane (every constant in the script is BMP).
* JS objects holding the source document / candidate translation are
  ordered association lists (`JMap`); JS object keys are unique, which the
  list operations respect (lookup takes the first hit, updates update the
  first hit, iteration follows insertion order).
* Each concrete regular expression of the script is implemented by a
  deterministic maximal-munch scanner.  For every pattern in the script
  this is exact: in each of them, whenever a greedy sub-matcher
  (`\s*`, `[a-z]+`, `[^>]*`, an optional quote or slash) would have to
  backtrack, the character that made the continuation fail can never be
  consumed by a shorter attempt either, so no backtracking can succeed.
* IEEE-double comparisons (`ratio < 0.4`, `count > total * 0.3`, ...) are
  modelled by the exact rational comparison.  For the thresholds used
  (0.15, 0.4, 1.5, 2.5, 0.3) and natural-number operands of any realistic
  magnitude the double rounding error is far below the distance to the
  decision boundary, so the comparisons agree.
* The Anthropic client is an external collaborator; its responses are
  supplied by an `Oracle` of pure functions, universally quantified in
  every theorem about the orchestrator.
-/

/-- ECMAScript `\s` class: WhiteSpace and LineTerminator code points. -/
def jsWhitespace (c : Char) : Bool :=
  let n := c.toNat
  n = 9 || n = 10 || n = 11 || n = 12 || n = 13 || n = 32 || n = 160 ||
  n = 0x1680 || (0x2000 ≤ n && n ≤ 0x200A) || n = 0x2028 || n = 0x2029 ||
  n = 0x202F || n = 0x205F || n = 0x3000 || n = 0xFEFF

/-- Case canonicalization performed by the `/i` regex flag on the ASCII
literals appearing in the script's patterns: ASCII upper-case letters fold
to lower case, everything else is left alone (no non-ASCII code point
case-folds onto an ASCII letter under ECMAScript canonicalization). -/
def lowerAscii (c : Char) : Char :=
  if 65 ≤ c.toNat && c.toNat ≤ 90 then Char.ofNat (c.toNat + 32) else c

/-- The `[a-z]` class under the `/i` flag (both cases match). -/
def isAsciiAlpha (c : Char) : Bool :=
  (65 ≤ c.toNat && c.toNat ≤ 90) || (97 ≤ c.toNat && c.toNat ≤ 122)

/-- The `[a-zA-Z0-9]` class. -/
def isAsciiAlnum (c : Char) : Bool :=
  isAsciiAlpha c || (48 ≤ c.toNat && c.toNat ≤ 57)

/-- The regex word-character class `\w` used by the `\b` boundary. -/
def isWordChar (c : Char) : Bool := isAsciiAlnum c || c = '_'

/-- JS `haystack.includes(needle)`. -/
def strIncludes (s sub : String) : Bool := decide (sub.data <:+: s.data)

/-- JS `s.trim() === ''`: every character is ECMAScript whitespace. -/
def trimEmpty (s : String) : Bool := s.data.all jsWhitespace

/-- Decimal digits of a natural number, most significant first, prepended
to `acc`; renders numbers the way JS template interpolation does.  The
structural `fuel` bounds the division chain and is always supplied as
`n + 1`, which the chain (one digit per step) can never exhaust. -/
def natToStrGo : Nat → Nat → List Char → List Char
  | 0, _, acc => acc
  | fuel + 1, n, acc =>
    let d := Char.ofNat (48 + n % 10)
    if n < 10 then d :: acc else natToStrGo fuel (n / 10) (d :: acc)

/-- Decimal rendering of a natural number. -/
def natToStr (n : Nat) : String := ⟨natToStrGo (n + 1) n []⟩

/-- Upper-case hexadecimal digit, as `toString(16).toUpperCase()` yields. -/
def hexDigit (n : Nat) : Char :=
  if n < 10 then Char.ofNat (48 + n) else Char.ofNat (55 + n)

/-- Hexadecimal digits of a natural number, most significant first
(structural fuel, supplied as `n + 1`, never exhausted). -/
def natToHexGo : Nat → Nat → List Char → List Char
  | 0, _, acc => acc
  | fuel + 1, n, acc =>
    let d := hexDigit (n % 16)
    if n < 16 then d :: acc else natToHexGo fuel (n / 16) (d :: acc)

/-- JS `padStart(4, '0')`. -/
def padStart4 (l : List Char) : List Char :=
  List.replicate (4 - l.length) '0' ++ l

/-- The `'U+' + c.charCodeAt(0).toString(16).toUpperCase().padStart(4, '0')`
rendering of a suspicious code point (all of them are BMP, so the first
UTF-16 code unit is the code point itself). -/
def codepointLabel (c : Char) : String :=
  "U+" ++ ⟨padStart4 (natToHexGo (c.toNat + 1) c.toNat [])⟩

/-- Insertion-order deduplication, as `[...new Set(a)]` produces. -/
def dedupFirstGo (seen : List String) : List String → List String
  | [] => []
  | x :: xs =>
    if seen.contains x then dedupFirstGo seen xs
    else x :: dedupFirstGo (x :: seen) xs

/-- Insertion-order deduplication, as `[...new Set(a)]` produces. -/
def dedupFirst (l : List String) : List String := dedupFirstGo [] l

-- ── data model: flat JSON document ──────────────────────

/-- Values of the flat translation documents: a string, or an array of
strings (the only value shapes in `locales/en.json`). -/
inductive JValue where
  | str : String → JValue
  | arr : List String → JValue
deriving DecidableEq

/-- A JS object with string keys, as an ordered association list. -/
abbrev JMap := List (String × JValue)

/-- JS `Object.keys`, in insertion order. -/
def JMap.keys (m : JMap) : List String := m.map Prod.fst

/-- JS property read `m[k]`. -/
def JMap.find (m : JMap) (k : String) : Option JValue := m.lookup k

/-- JS `k in m`. -/
def JMap.hasKey (m : JMap) (k : String) : Bool := (m.lookup k).isSome

/-- JS assignment `m[k] = v`: replaces in place if the key exists,
appends otherwise. -/
def JMap.set (m : JMap) (k : String) (v : JValue) : JMap :=
  if m.hasKey k then m.map (fun kv => if kv.1 = k then (k, v) else kv)
  else m ++ [(k, v)]

/-- The `typeof`/`Array.isArray` classification used by `validate`. -/
def jtype : JValue → String
  | .str _ => "string"
  | .arr _ => "array"

-- ── constants of the script ─────────────────────────────

/-- An apostrophe, kept out of string literals. -/
def apos : String := ⟨[Char.ofNat 39]⟩

/-- Proper names allowed to be grammatically declined (`PROTECTED_NAMES`). -/
def PROTECTED_NAMES : List String :=
  ["Szymon P. Pepliński", "Shoshana Zuboff", "Gilbert Simondon",
   "N. Katherine Hayles", "Byung-Chul Han", "Kyle Chayka",
   "Douglas Rushkoff", "James Williams", "Kasparov", "Tegmark"]

/-- Brand and book titles that must appear verbatim (`PROTECTED_TITLES`). -/
def PROTECTED_TITLES : List String :=
  ["Generatywnie", "The Age of Surveillance Capitalism",
   "Du mode d" ++ apos ++ "existence des objets techniques",
   "How We Became Posthuman"]

/-- The tag allow-list (`ALLOWED_TAGS`). -/
def ALLOWED_TAGS : List String := ["strong", "cite", "em"]

/-- Languages with relaxed length thresholds (`CJK_LANGS`). -/
def CJK_LANGS : List String := ["ja", "zh", "ko", "zh-TW", "zh-CN", "zh-HK"]

-- ── deterministic matchers for the concrete regexes ─────

/-- Atoms of the script's dangerous-pattern regexes.  All the literals are
ASCII, and `lit` literals are matched case-insensitively (the `/i` flag). -/
inductive Atom where
  | lit : String → Atom
  | verbatim : String → Atom
  | wsStar : Atom
  | alphaPlus : Atom
  | opt : List Char → Atom
  | wsOrGt : Atom
  | alts : List String → Atom
deriving DecidableEq

/-- Consume a case-insensitive literal; returns the rest on success. -/
def ciConsume : List Char → List Char → Option (List Char)
  | [], t => some t
  | _ :: _, [] => none
  | p :: ps, c :: cs => if lowerAscii c = p then ciConsume ps cs else none

/-- Consume a case-sensitive literal; returns the rest on success. -/
def csConsume : List Char → List Char → Option (List Char)
  | [], t => some t
  | _ :: _, [] => none
  | p :: ps, c :: cs => if c = p then csConsume ps cs else none

/-- Match a sequence of atoms at the head of the input.  Greedy and
deterministic; exact for the concrete patterns below because in each of
them a failed greedy continuation can never be rescued by a shorter one
(the character that stops `\s*` / `[a-z]+` / the optional `['"]?`, `\/?`
is never matchable by what follows the quantifier). -/
def matchAtoms : List Atom → List Char → Bool
  | [], _ => true
  | Atom.lit s :: ps, t =>
    match ciConsume s.data t with
    | some r => matchAtoms ps r
    | none => false
  | Atom.verbatim s :: ps, t =>
    match csConsume s.data t with
    | some r => matchAtoms ps r
    | none => false
  | Atom.wsStar :: ps, t => matchAtoms ps (t.dropWhile jsWhitespace)
  | Atom.alphaPlus :: ps, t =>
    match t with
    | [] => false
    | c :: r => if isAsciiAlpha c then matchAtoms ps (r.dropWhile isAsciiAlpha) else false
  | Atom.opt cs :: ps, t =>
    match t with
    | [] => matchAtoms ps t
    | c :: r => if cs.contains c then matchAtoms ps r else matchAtoms ps (c :: r)
  | Atom.wsOrGt :: ps, t =>
    match t with
    | [] => false
    | c :: r => if jsWhitespace c || c = '>' then matchAtoms ps r else false
  | Atom.alts ss :: ps, t =>
    ss.any (fun s =>
      match ciConsume s.data t with
      | some r => matchAtoms ps r
      | none => false)

/-- JS `re.test(s)` with `lastIndex` reset: try the pattern at every
position (including the end-of-string position). -/
def testPat (p : List Atom) (cs : List Char) : Bool := cs.tails.any (matchAtoms p)

/-- The `DANGEROUS_PATTERNS` catalogue: each regex, as atoms, with its
label.  The flags are `gi` for all but the HTML-comment pattern, whose
literal contains no letters, so `lit`/`verbatim` coincide there anyway. -/
def DANGEROUS_PATTERNS : List (List Atom × String) :=
  [([Atom.lit "javascript", Atom.wsStar, Atom.lit ":"], "javascript: URI"),
   ([Atom.lit "on", Atom.alphaPlus, Atom.wsStar, Atom.lit "="], "inline event handler"),
   ([Atom.lit "<script"], "<script> tag"),
   ([Atom.lit "</script"], "</script> tag"),
   ([Atom.lit "<iframe"], "<iframe> tag"),
   ([Atom.lit "<object"], "<object> tag"),
   ([Atom.lit "<embed"], "<embed> tag"),
   ([Atom.lit "<link", Atom.wsOrGt], "<link> tag"),
   ([Atom.lit "<meta", Atom.wsOrGt], "<meta> tag"),
   ([Atom.lit "<svg", Atom.wsOrGt], "<svg> tag"),
   ([Atom.lit "<form", Atom.wsOrGt], "<form> tag"),
   ([Atom.lit "<input", Atom.wsOrGt], "<input> tag"),
   ([Atom.lit "<img", Atom.wsOrGt], "<img> tag"),
   ([Atom.lit "data", Atom.wsStar, Atom.lit ":", Atom.wsStar, Atom.lit "text/html"],
    "data:text/html URI"),
   ([Atom.lit "expression", Atom.wsStar, Atom.lit "("], "CSS expression()"),
   ([Atom.lit "url", Atom.wsStar, Atom.lit "(", Atom.wsStar, Atom.opt ['\'', '"'],
     Atom.wsStar, Atom.lit "javascript"], "CSS url(javascript:)"),
   ([Atom.verbatim "<!--"], "HTML comment")]

/-- The `ENCODED_TAG_RE` regex
`&lt;\s*\/?\s*(script|iframe|svg|object|embed|form|img|input|link|meta)`
with flags `gi`, as atoms. -/
def ENCODED_TAG_PAT : List Atom :=
  [Atom.lit "&lt;", Atom.wsStar, Atom.opt ['/'], Atom.wsStar,
   Atom.alts ["script", "iframe", "svg", "object", "embed", "form", "img",
              "input", "link", "meta"]]

/-- The `UNICODE_SUSPICIOUS` character class. -/
def suspiciousChar (c : Char) : Bool :=
  let n := c.toNat
  n = 0x200B || n = 0x200C || n = 0x200D || n = 0xFEFF || n = 0xAD ||
  n = 0x2028 || n = 0x2029 || (0x202A ≤ n && n ≤ 0x202E) ||
  (0x2066 ≤ n && n ≤ 0x2069) || n = 0x61C

/-- Test 15 of `validate`: `/\\u003c/gi.test(t) || /\\u003e/gi.test(t)`. -/
def unicodeEscTest (cs : List Char) : Bool :=
  testPat [Atom.lit "\\u003c"] cs || testPat [Atom.lit "\\u003e"] cs

-- ── global-regex scanning with lastIndex semantics ──────

/-- Number of matches a global regex finds in `cs`, given a matcher that
reports the length a match at the current position consumes.  Mirrors
`lastIndex` advancement: after a match of length `k ≥ 1` scanning resumes
after it; a zero-length match still advances by one.  The structural
`fuel` is always supplied as one more than the input length, which the
scan (at least one character consumed per step) can never exhaust. -/
def scanCountGo (m : List Char → Option Nat) : Nat → List Char → Nat
  | 0, _ => 0
  | _ + 1, [] =>
    (match m [] with
     | some _ => 1
     | none => 0)
  | fuel + 1, c :: rest =>
    match m (c :: rest) with
    | some k => 1 + scanCountGo m fuel (List.drop (max 1 k) (c :: rest))
    | none => scanCountGo m fuel rest

/-- Length lemma used by the scanners below. -/
theorem dropWhile_length_le (p : Char → Bool) (l : List Char) :
    (l.dropWhile p).length ≤ l.length := by
  induction l with
  | nil => simp
  | cons c r ih =>
    by_cases h : p c
    · simp [List.dropWhile, h]; omega
    · simp [List.dropWhile, h]

/-- Matcher for `new RegExp('<tag(\\s[^>]*)?>', 'g')` (case sensitive) at
the head of the input; returns the length consumed.  The optional group is
taken greedily: if it cannot complete, a match without it would need `>`
where a whitespace character stands, so taking it is exact. -/
def openMatchLen (tag : List Char) (cs : List Char) : Option Nat :=
  match csConsume ('<' :: tag) cs with
  | none => none
  | some r =>
    match r with
    | [] => none
    | '>' :: _ => some (tag.length + 2)
    | c :: r2 =>
      if jsWhitespace c then
        match r2.dropWhile (fun x => decide (x ≠ '>')) with
        | '>' :: _ =>
          some (tag.length + 3 + (r2.takeWhile (fun x => decide (x ≠ '>'))).length + 1)
        | _ => none
      else none

/-- Matcher for `new RegExp('</tag>', 'g')` at the head of the input. -/
def closeMatchLen (tag : List Char) (cs : List Char) : Option Nat :=
  match csConsume ('<' :: '/' :: (tag ++ ['>'])) cs with
  | none => none
  | some _ => some (tag.length + 3)

/-- Open/close tag counts, the result shape of `countTag` (`op` models the
source's `open` field, which is a keyword here). -/
structure TagCounts where
  op : Nat
  cl : Nat
deriving DecidableEq

/-- The script's `countTag(str, tag)`. -/
def countTag (str : String) (tag : String) : TagCounts :=
  { op := scanCountGo (openMatchLen tag.data) (str.data.length + 1) str.data,
    cl := scanCountGo (closeMatchLen tag.data) (str.data.length + 1) str.data }

/-- Matcher for `TAG_RE = /<\/?([a-zA-Z][a-zA-Z0-9]*)\b[^>]*>/g` at the
head of the input: returns the captured tag name and the length consumed.
The name group is forced maximal by the `\b` boundary (any shorter cut
ends between two word characters), and `[^>]*` is forced to stop at the
first `>`. -/
def tagMatchAt (cs : List Char) : Option (List Char × Nat) :=
  match cs with
  | '<' :: rest =>
    let slashLen := if rest.head? = some '/' then 1 else 0
    let r1 := if rest.head? = some '/' then rest.tail else rest
    match r1 with
    | c :: r2 =>
      if isAsciiAlpha c then
        let name := c :: r2.takeWhile isAsciiAlnum
        let r3 := r2.dropWhile isAsciiAlnum
        let bOk := match r3.head? with
          | none => true
          | some d => !isWordChar d
        if bOk then
          match r3.dropWhile (fun x => decide (x ≠ '>')) with
          | '>' :: _ =>
            some (name, 1 + slashLen + name.length +
              (r3.takeWhile (fun x => decide (x ≠ '>'))).length + 1)
          | _ => none
        else none
      else none
    | [] => none
  | _ => none

/-- All `TAG_RE` captures in order, with `lastIndex` advancement, as the
`while ((match = TAG_RE.exec(tgt)) !== null)` loop of check 12 collects
(structural fuel, supplied as the input length plus one, never
exhausted). -/
def tagScanGo : Nat → List Char → List (List Char)
  | 0, _ => []
  | _ + 1, [] => []
  | fuel + 1, c :: rest =>
    match tagMatchAt (c :: rest) with
    | some (name, k) =>
      name :: tagScanGo fuel (List.drop (max 1 k) (c :: rest))
    | none => tagScanGo fuel rest

/-- All `TAG_RE` captures of a string. -/
def tagScan (cs : List Char) : List (List Char) := tagScanGo (cs.length + 1) cs

-- ── protected-name stems ────────────────────────────────

/-- JS `name.split(/\s+/)`: split at maximal whitespace runs (a leading
run yields a leading empty field, a trailing run a trailing one);
structural fuel, supplied as the input length plus one, never exhausted
(each step consumes at least the whitespace character it split at). -/
def splitWsGo : Nat → List Char → List (List Char)
  | 0, _ => []
  | fuel + 1, cs =>
    let f := cs.takeWhile (fun c => !jsWhitespace c)
    match cs.dropWhile (fun c => !jsWhitespace c) with
    | [] => [f]
    | _ :: r => f :: splitWsGo fuel (r.dropWhile jsWhitespace)

/-- JS `name.split(/\s+/)`. -/
def splitWsRun (cs : List Char) : List (List Char) := splitWsGo (cs.length + 1) cs

/-- The significant words of a protected name:
`name.split(/\s+/).filter(w => w.length >= 3 && !w.endsWith('.'))`. -/
def significantWords (name : String) : List String :=
  ((splitWsRun name.data).map (fun w => (⟨w⟩ : String))).filter
    (fun w => w.length ≥ 3 && !(w.data.getLast? = some '.'))

/-- The stem of a word:
`word.length <= 5 ? word : word.substring(0, Math.max(4, word.length - 2))`. -/
def stemOf (word : String) : String :=
  if word.length ≤ 5 then word else ⟨word.data.take (max 4 (word.length - 2))⟩

-- ── error message builders (template literals of the script) ──

def missingKeysMsg (missing : List String) : String :=
  "Missing keys: " ++ String.intercalate ", " missing

def extraKeysMsg (extra : List String) : String :=
  "Extra keys (removed): " ++ String.intercalate ", " extra

def typeMsg (key srcType tgtType : String) : String :=
  "Type mismatch on \"" ++ key ++ "\": expected " ++ srcType ++ ", got " ++ tgtType

def arrLenMsg (key : String) (expLen gotLen : Nat) : String :=
  "Array length mismatch on \"" ++ key ++ "\": expected " ++ natToStr expLen ++
    ", got " ++ natToStr gotLen

def emptyMsg (key : String) : String := "Empty translation for \"" ++ key ++ "\""

def tagMismatchMsg (key tag : String) (so sc tOp tCl : Nat) : String :=
  "HTML tag mismatch on \"" ++ key ++ "\": <" ++ tag ++ "> expected " ++
    natToStr so ++ "/" ++ natToStr sc ++ " open/close, got " ++
    natToStr tOp ++ "/" ++ natToStr tCl

def unclosedMsg (key tag : String) (tOp tCl : Nat) : String :=
  "Unclosed <" ++ tag ++ "> in \"" ++ key ++ "\": " ++ natToStr tOp ++
    " opened, " ++ natToStr tCl ++ " closed"

def nameMsg (key name stem : String) : String :=
  "Protected name missing in \"" ++ key ++ "\": \"" ++ name ++ "\" (stem \"" ++
    stem ++ "\" not found)"

def titleMsg (key title : String) : String :=
  "Protected title missing in \"" ++ key ++ "\": \"" ++ title ++ "\""

/-- `Math.round(ratio * 100)` with `ratio = a / b` on doubles, rendered as
JS does; the `b = 0` case renders `Infinity` (only reachable on the
"suspiciously long" path). -/
def pctRound (a b : Nat) : String :=
  if b = 0 then "Infinity" else natToStr ((200 * a + b) / (2 * b))

def shortMsg (key pct : String) : String :=
  "Suspiciously short \"" ++ key ++ "\": " ++ pct ++ "% of original"

def longMsg (key pct : String) : String :=
  "Suspiciously long \"" ++ key ++ "\": " ++ pct ++ "% of original"

def arrowMsg (key : String) : String := "Arrow symbol → missing in \"" ++ key ++ "\""

def secPatternMsg (label key : String) : String :=
  "SECURITY: " ++ label ++ " in \"" ++ key ++ "\""

def secTagMsg (tagName key : String) : String :=
  "SECURITY: disallowed <" ++ tagName ++ "> tag in \"" ++ key ++ "\""

def secEncodedMsg (key : String) : String :=
  "SECURITY: encoded HTML tag in \"" ++ key ++ "\" (entity-escaped <script> etc.)"

def secUnicodeMsg (key : String) (cps : List String) : String :=
  "SECURITY: suspicious unicode in \"" ++ key ++ "\": " ++ String.intercalate ", " cps

def secEscapeMsg (key : String) : String :=
  "SECURITY: unicode escape sequence in \"" ++ key ++ "\" (\\u003c/\\u003e)"

def untranslatedMsg (cnt total : Nat) : String :=
  natToStr cnt ++ "/" ++ natToStr total ++ " keys appear untranslated (identical to English)"

-- ── validate (the 17 technical checks) ──────────────────

/-- One occurrence of the "untranslated" count of check 9: target language
is not English and the string value is identical to a source string longer
than 30. -/
def untransOne (targetLang src tgt : String) : Nat :=
  if targetLang ≠ "en" ∧ tgt = src ∧ src.length > 30 then 1 else 0

/-- The per-string-key body of `validate` (checks 5-15 for one key whose
source and candidate values are both strings), returning the errors pushed
for the key and the contribution to `untranslatedCount`.  Check 5
(`continue` on an empty translation of a non-empty source) skips all the
remaining checks of the key. -/
def perStringChecks (targetLang key src tgt : String) : List String × Nat :=
  if trimEmpty tgt && !trimEmpty src then ([emptyMsg key], 0)
  else
    let tagErrs := ALLOWED_TAGS.flatMap (fun tag =>
      let sc := countTag src tag
      let tc := countTag tgt tag
      (if sc.op ≠ tc.op ∨ sc.cl ≠ tc.cl then
        [tagMismatchMsg key tag sc.op sc.cl tc.op tc.cl] else []) ++
      (if tc.op ≠ tc.cl then [unclosedMsg key tag tc.op tc.cl] else []))
    let nameErrs := PROTECTED_NAMES.flatMap (fun name =>
      if strIncludes src name then
        (significantWords name).flatMap (fun w =>
          if strIncludes tgt (stemOf w) then [] else [nameMsg key name (stemOf w)])
      else [])
    let titleErrs := PROTECTED_TITLES.flatMap (fun title =>
      if strIncludes src title && !strIncludes tgt title then [titleMsg key title] else [])
    let isCJK := CJK_LANGS.contains targetLang
    let minPct : Nat := if isCJK then 15 else 40
    let maxPct : Nat := if isCJK then 150 else 250
    let shortErrs := if 100 * tgt.length < minPct * src.length then
      [shortMsg key (pctRound tgt.length src.length)] else []
    let longErrs := if 100 * tgt.length > maxPct * src.length then
      [longMsg key (pctRound tgt.length src.length)] else []
    let arrowErrs := if strIncludes src "→" && !strIncludes tgt "→" then
      [arrowMsg key] else []
    let secPat := DANGEROUS_PATTERNS.flatMap (fun pl =>
      if testPat pl.1 tgt.data then [secPatternMsg pl.2 key] else [])
    let secTags := (tagScan tgt.data).flatMap (fun n =>
      let tn : String := ⟨n.map lowerAscii⟩
      if ALLOWED_TAGS.contains tn then [] else [secTagMsg tn key])
    let secEnc := if testPat ENCODED_TAG_PAT tgt.data then [secEncodedMsg key] else []
    let um := tgt.data.filter suspiciousChar
    let secUni := if um.isEmpty then [] else
      [secUnicodeMsg key (dedupFirst (um.map codepointLabel))]
    let secEsc := if unicodeEscTest tgt.data then [secEscapeMsg key] else []
    (tagErrs ++ nameErrs ++ titleErrs ++ shortErrs ++ longErrs ++ arrowErrs ++
      secPat ++ secTags ++ secEnc ++ secUni ++ secEsc,
     untransOne targetLang src tgt)

/-- Check 2's in-place mutation: drop candidate keys absent from source. -/
def deleteExtras (translated source : JMap) : JMap :=
  translated.filter (fun kv => (JMap.keys source).contains kv.1)

/-- Result shape of `validate`; `translated` is the candidate after the
in-place extra-key deletion. -/
structure VResult where
  translated : JMap
  errors : List String
  warnings : List String
deriving DecidableEq

/-- Errors and untranslated-count contribution of one source key in the
per-string loop (checks 5-15 run only when both values are strings). -/
def perKeyPair (translated source : JMap) (targetLang k : String) : List String × Nat :=
  match JMap.find source k, JMap.find translated k with
  | some (JValue.str s), some (JValue.str t) => perStringChecks targetLang k s t
  | _, _ => ([], 0)

/-- Check 1's list of missing keys. -/
def missingList (translated source : JMap) : List String :=
  (JMap.keys source).filter (fun k => !JMap.hasKey translated k)

/-- Check 2's list of extra keys. -/
def extraList (translated source : JMap) : List String :=
  (JMap.keys translated).filter (fun k => !(JMap.keys source).contains k)

/-- Check 3's errors (`translated2` is the candidate after the extra-key
deletion, through which the loop reads `translated[key]`). -/
def typeErrsOf (translated2 source : JMap) : List String :=
  (JMap.keys source).flatMap (fun k =>
    match JMap.find translated2 k, JMap.find source k with
    | some tv, some sv =>
      if jtype sv ≠ jtype tv then [typeMsg k (jtype sv) (jtype tv)] else []
    | _, _ => [])

/-- Check 4's errors. -/
def arrErrsOf (translated2 source : JMap) : List String :=
  (JMap.keys source).flatMap (fun k =>
    match JMap.find source k, JMap.find translated2 k with
    | some (JValue.arr xs), some (JValue.arr ys) =>
      if xs.length ≠ ys.length then [arrLenMsg k xs.length ys.length] else []
    | _, _ => [])

/-- Errors of the per-string loop (checks 5-15) over all source keys. -/
def perErrsOf (translated2 source : JMap) (targetLang : String) : List String :=
  (JMap.keys source).flatMap (fun k => (perKeyPair translated2 source targetLang k).1)

/-- The loop's `untranslatedCount` after all keys were processed. -/
def untransCount (translated2 source : JMap) (targetLang : String) : Nat :=
  ((JMap.keys source).map (fun k => (perKeyPair translated2 source targetLang k).2)).sum

/-- Check 16's `stringKeys`: source keys with a string value longer than 30. -/
def eligibleKeys (source : JMap) : List String :=
  (JMap.keys source).filter (fun k =>
    match JMap.find source k with
    | some (JValue.str s) => s.length > 30
    | _ => false)

/-- Errors of checks 1 and 3-15, in push order. -/
def validateMainErrs (translated source : JMap) (targetLang : String) : List String :=
  (if (missingList translated source).isEmpty then []
   else [missingKeysMsg (missingList translated source)]) ++
  typeErrsOf (deleteExtras translated source) source ++
  arrErrsOf (deleteExtras translated source) source ++
  perErrsOf (deleteExtras translated source) source targetLang

/-- Check 16's aggregate error. -/
def aggErrsOf (translated2 source : JMap) (targetLang : String) : List String :=
  if targetLang ≠ "en" ∧ (eligibleKeys source).length > 0 ∧
      10 * untransCount translated2 source targetLang > 3 * (eligibleKeys source).length then
    [untranslatedMsg (untransCount translated2 source targetLang) (eligibleKeys source).length]
  else []

/-- The script's `validate(translated, source, targetLang)`: missing keys,
extra-key removal (a warning), type match, array length, the per-string
checks 5-15, and the bulk-untranslated check 16, with errors accumulated
in exactly the push order of the script. -/
def validate (translated source : JMap) (targetLang : String) : VResult :=
  { translated := deleteExtras translated source,
    errors := validateMainErrs translated source targetLang ++
      aggErrsOf (deleteExtras translated source) source targetLang,
    warnings := if (extraList translated source).isEmpty then []
      else [extraKeysMsg (extraList translated source)] }

-- ── validateValue (per-key subset used by the semantic fixer) ──

/-- String-typed body of `validateValue(key, tgt, src)`: the per-key
subset of the technical checks (same logic as checks 5-8 and 10-15 of
`validate`, with the shorter message texts of the script and the
non-CJK-adjusted 0.4/2.5 length thresholds). -/
def validateValueStr (tgt src : String) : List String :=
  if trimEmpty tgt && !trimEmpty src then ["Empty translation"]
  else
    let tagErrs := ALLOWED_TAGS.flatMap (fun tag =>
      let srcC := countTag src tag
      let tgtC := countTag tgt tag
      (if srcC.op ≠ tgtC.op ∨ srcC.cl ≠ tgtC.cl then
        ["HTML <" ++ tag ++ "> count mismatch"] else []) ++
      (if tgtC.op ≠ tgtC.cl then ["Unclosed <" ++ tag ++ ">"] else []))
    let nameErrs := PROTECTED_NAMES.flatMap (fun name =>
      if strIncludes src name then
        (significantWords name).flatMap (fun w =>
          if strIncludes tgt (stemOf w) then []
          else ["Missing protected name: \"" ++ name ++ "\" (stem \"" ++ stemOf w ++ "\")"])
      else [])
    let titleErrs := PROTECTED_TITLES.flatMap (fun title =>
      if strIncludes src title && !strIncludes tgt title then
        ["Missing protected title: \"" ++ title ++ "\""] else [])
    let shortErrs := if 100 * tgt.length < 40 * src.length then
      ["Too short: " ++ pctRound tgt.length src.length ++ "%"] else []
    let longErrs := if 100 * tgt.length > 250 * src.length then
      ["Too long: " ++ pctRound tgt.length src.length ++ "%"] else []
    let arrowErrs := if strIncludes src "→" && !strIncludes tgt "→" then
      ["Missing → arrow"] else []
    let secPat := DANGEROUS_PATTERNS.flatMap (fun pl =>
      if testPat pl.1 tgt.data then ["SECURITY: " ++ pl.2] else [])
    let secTags := (tagScan tgt.data).flatMap (fun n =>
      if ALLOWED_TAGS.contains (⟨n.map lowerAscii⟩ : String) then []
      else ["SECURITY: <" ++ (⟨n⟩ : String) ++ ">"])
    let secEnc := if testPat ENCODED_TAG_PAT tgt.data then ["SECURITY: encoded HTML tag"] else []
    let secUni := if (tgt.data.filter suspiciousChar).isEmpty then []
      else ["SECURITY: suspicious unicode"]
    let secEsc := if unicodeEscTest tgt.data then ["SECURITY: unicode escape"] else []
    tagErrs ++ nameErrs ++ titleErrs ++ shortErrs ++ longErrs ++ arrowErrs ++
      secPat ++ secTags ++ secEnc ++ secUni ++ secEsc

/-- The script's `validateValue(key, tgt, src)`; returns `[]` unless both
values are strings (the `key` parameter is unused by the script too). -/
def validateValue (key : String) (tgt src : JValue) : List String :=
  match tgt, src with
  | JValue.str t, JValue.str s =>
    let _ := key
    validateValueStr t s
  | _, _ => []

-- ── findFailedKeys ──────────────────────────────────────

/-- Remove the first occurrence of `pat` (JS `s.replace(pat, '')` with a
string pattern); the input is returned unchanged when `pat` never occurs. -/
def stripFirst (pat : List Char) : List Char → List Char
  | [] => []
  | c :: r =>
    if pat.isPrefixOf (c :: r) then List.drop pat.length (c :: r)
    else c :: stripFirst pat r

/-- JS `s.split(', ')`. -/
def splitCommaGo : List Char → List Char → List (List Char)
  | [], cur => [cur.reverse]
  | ',' :: ' ' :: r, cur => cur.reverse :: splitCommaGo r []
  | c :: r, cur => splitCommaGo r (c :: cur)

/-- First match of `/"([^"]+)"/` in an error message: the first position
where a quote is followed by at least one non-quote character and another
quote; the engine advances one position whenever the attempt fails. -/
def firstQuoted : List Char → Option String
  | [] => none
  | '"' :: r =>
    match r.dropWhile (fun c => decide (c ≠ '"')) with
    | '"' :: _ =>
      let content := r.takeWhile (fun c => decide (c ≠ '"'))
      if content.isEmpty then firstQuoted r else some ⟨content⟩
    | _ => firstQuoted r
  | _ :: r => firstQuoted r

/-- JS `k.trim()` over the ECMAScript whitespace set. -/
def jsTrim (cs : List Char) : List Char :=
  ((cs.dropWhile jsWhitespace).reverse.dropWhile jsWhitespace).reverse

/-- JS `Set.prototype.add`: append if not already present. -/
def addKey (ks : List String) (k : String) : List String :=
  if ks.contains k then ks else ks ++ [k]

/-- Processing of one error message by `findFailedKeys`: the special-cased
"Missing keys" and "appear untranslated" messages, else the first quoted
substring; every addition is guarded by `key in source`. -/
def findFailedKeysStep (source translated : JMap) (acc : List String) (err : String) :
    List String :=
  if ("Missing keys:".data).isPrefixOf err.data then
    (splitCommaGo (stripFirst ("Missing keys: ".data) err.data) []).foldl
      (fun a n =>
        let key : String := ⟨jsTrim n⟩
        if JMap.hasKey source key then addKey a key else a) acc
  else if strIncludes err "appear untranslated" then
    (JMap.keys source).foldl (fun a k =>
      match JMap.find source k, JMap.find translated k with
      | some (JValue.str s), some (JValue.str t) =>
        if s.length > 30 ∧ t = s then addKey a k else a
      | _, _ => a) acc
  else
    match firstQuoted err.data with
    | some k => if JMap.hasKey source k then addKey acc k else acc
    | none => acc

/-- The script's `findFailedKeys(errors, source, translated, targetLang)`,
with the JS `Set` modelled as an insertion-ordered duplicate-free list
(the `targetLang` parameter is unused by the script too). -/
def findFailedKeys (errors : List String) (source translated : JMap)
    (targetLang : String) : List String :=
  let _ := targetLang
  errors.foldl (findFailedKeysStep source translated) []

-- ── reorderKeys ─────────────────────────────────────────

/-- The script's `reorderKeys(translated, source)`: the candidate's
entries, listed in source key order. -/
def reorderKeys (translated source : JMap) : JMap :=
  (JMap.keys source).filterMap (fun k =>
    (JMap.find translated k).map (fun v => (k, v)))

-- ── typographic quote normalization ─────────────────────

/-- The `TYPOGRAPHIC_QUOTES` table: language code to (opening, closing)
typographic pair (French carries a narrow no-break space inside the
pair, exactly as in the script). -/
def TYPOGRAPHIC_QUOTES : List (String × String × String) :=
  [("pl", ("„", "”")), ("cs", ("„", "”")), ("de", ("„", "“")),
   ("hu", ("„", "”")), ("ro", ("„", "”")), ("nl", ("“", "”")),
   ("sv", ("”", "”")), ("da", ("“", "”")), ("fi", ("”", "”")),
   ("nb", ("«", "»")), ("fr", ("« ", " »")), ("es", ("«", "»")),
   ("it", ("«", "»")), ("pt", ("«", "»")), ("tr", ("“", "”")),
   ("ar", ("«", "»")), ("hi", ("“", "”")), ("ru", ("«", "»")),
   ("uk", ("«", "»")), ("ja", ("「", "」")), ("zh", ("“", "”")),
   ("ko", ("“", "”"))]

/-- Lazy scan of `([^”“"]*?)"` after a `„`: the run of characters up to
the first member of the excluded class, which must be a straight quote. -/
def halfScan : List Char → Option (List Char × List Char)
  | [] => none
  | c :: r =>
    if c = '"' then some ([], r)
    else if c = '”' ∨ c = '“' then none
    else match halfScan r with
      | some (co, r2) => some (c :: co, r2)
      | none => none

/-- Structure of a successful `halfScan`: the input splits as the scanned
content, the straight quote, and the rest, and the content avoids the
excluded class. -/
theorem halfScan_shape : ∀ cs co r2, halfScan cs = some (co, r2) →
    cs = co ++ '"' :: r2 ∧ ∀ c ∈ co, c ≠ '"' ∧ c ≠ '”' ∧ c ≠ '“' := by
  intro cs
  induction cs with
  | nil => intro co r2 h; simp [halfScan] at h
  | cons c r ih =>
    intro co r2 h
    simp only [halfScan] at h
    split at h
    · rename_i hq
      injection h with h
      injection h with h1 h2
      subst h1; subst h2; subst hq
      simp
    · rename_i hq
      split at h
      · exact absurd h (by simp)
      · rename_i hcl
        cases hps : halfScan r with
        | none => rw [hps] at h; simp at h
        | some v =>
          obtain ⟨co2, r3⟩ := v
          rw [hps] at h
          simp only [Option.some.injEq, Prod.mk.injEq] at h
          obtain ⟨h1, h2⟩ := h
          obtain ⟨hcs, hnin⟩ := ih co2 r3 hps
          subst h1; subst h2
          refine ⟨by rw [hcs]; simp, ?_⟩
          intro x hx
          rcases List.mem_cons.1 hx with hx | hx
          · subst hx
            push_neg at hcl
            exact ⟨hq, hcl.1, hcl.2⟩
          · exact hnin x hx

/-- The rest of a successful `halfScan` is shorter than the input. -/
theorem halfScan_lt (cs co r2 : List Char) (h : halfScan cs = some (co, r2)) :
    r2.length < cs.length := by
  have := (halfScan_shape cs co r2 h).1
  rw [this]
  simp
  omega

/-- The first replacement of `normalizeQuotes`,
`result.replace(/„([^”“"]*?)"/g, '„$1' + close)`: each `„` whose first
following special character is a straight quote is completed with the
language's closing quote; a failed attempt advances one position, as the
regex engine does. -/
def halfRep (closeQ : List Char) : List Char → List Char
  | [] => []
  | c :: rest =>
    if c = '„' then
      match hm : halfScan rest with
      | some (content, rest2) => '„' :: (content ++ closeQ ++ halfRep closeQ rest2)
      | none => c :: halfRep closeQ rest
    else c :: halfRep closeQ rest
termination_by cs => cs.length
decreasing_by
  · rename_i hm
    have := halfScan_lt _ _ _ hm
    simp only [List.length_cons]
    omega
  · simp
  · simp

/-- Lazy scan of `([^"]*?)"`: the run of non-quote characters up to the
next straight quote. -/
def pairScan : List Char → Option (List Char × List Char)
  | [] => none
  | c :: r =>
    if c = '"' then some ([], r)
    else match pairScan r with
      | some (co, r2) => some (c :: co, r2)
      | none => none

/-- Structure of a successful `pairScan`. -/
theorem pairScan_shape : ∀ cs co r2, pairScan cs = some (co, r2) →
    cs = co ++ '"' :: r2 ∧ '"' ∉ co := by
  intro cs
  induction cs with
  | nil => intro co r2 h; simp [pairScan] at h
  | cons c r ih =>
    intro co r2 h
    simp only [pairScan] at h
    split at h
    · rename_i hq
      injection h with h
      injection h with h1 h2
      subst h1; subst h2; subst hq
      simp
    · rename_i hq
      cases hps : pairScan r with
      | none => rw [hps] at h; simp at h
      | some v =>
        obtain ⟨co2, r3⟩ := v
        rw [hps] at h
        simp only [Option.some.injEq, Prod.mk.injEq] at h
        obtain ⟨h1, h2⟩ := h
        obtain ⟨hcs, hnin⟩ := ih co2 r3 hps
        subst h1; subst h2
        refine ⟨by rw [hcs]; simp, ?_⟩
        simp only [List.mem_cons, not_or]
        exact ⟨fun hx => hq hx.symm, hnin⟩

/-- The rest of a successful `pairScan` is shorter than the input. -/
theorem pairScan_lt (cs co r2 : List Char) (h : pairScan cs = some (co, r2)) :
    r2.length < cs.length := by
  have := (pairScan_shape cs co r2 h).1
  rw [this]
  simp
  omega

/-- The second replacement of `normalizeQuotes`,
`result.replace(/"([^"]*?)"/g, open + '$1' + close)`: consecutive
straight-quote pairs become the language's typographic pair. -/
def pairRep (openQ closeQ : List Char) : List Char → List Char
  | [] => []
  | c :: rest =>
    if c = '"' then
      match hm : pairScan rest with
      | some (content, rest2) => openQ ++ content ++ closeQ ++ pairRep openQ closeQ rest2
      | none => c :: pairRep openQ closeQ rest
    else c :: pairRep openQ closeQ rest
termination_by cs => cs.length
decreasing_by
  · rename_i hm
    have := pairScan_lt _ _ _ hm
    simp only [List.length_cons]
    omega
  · simp
  · simp

/-- The script's `normalizeQuotes(text, langCode)`: nothing for languages
without a table entry; otherwise the half-pair repair (only when the
language's opening quote is `„`) followed by the straight-pair
replacement. -/
def normalizeQuotes (text : String) (langCode : String) : String :=
  match TYPOGRAPHIC_QUOTES.lookup langCode with
  | none => text
  | some (openQ, closeQ) =>
    let r1 := if openQ = "„" then halfRep closeQ.data text.data else text.data
    ⟨pairRep openQ.data closeQ.data r1⟩

-- ── the orchestrator (translate, phases 2-5 and persistence) ──

/-- `MAX_ROUNDS`: first validation pass plus up to two retry rounds. -/
def MAX_ROUNDS : Nat := 3

/-- `MAX_SEMANTIC_ROUNDS`. -/
def MAX_SEMANTIC_ROUNDS : Nat := 3

/-- A semantic issue as parsed from the reviewer's line format. -/
structure Issue where
  key : String
  itype : String
  description : String
deriving DecidableEq

/-- Pure model of the Anthropic-client collaborators used from phase 2 on:
`retryVal round key keyErrors` is the value produced by `retryKey` (or
`none` when that call reports an error), `reviewIssues round translated`
the issue list of `semanticReview` (or `none` on a truncated/failed
review), and `fixVal round issue translated` the corrected value of
`fixSemanticKey`. -/
structure Oracle where
  retryVal : Nat → String → List String → Option JValue
  reviewIssues : Nat → JMap → Option (List Issue)
  fixVal : Nat → Issue → JMap → Option String

/-- Errors starting with the fatal prefix, as
`errors.filter(e => e.startsWith('SECURITY:'))` selects them. -/
def isSecurityErr (e : String) : Bool := ("SECURITY:".data).isPrefixOf e.data

/-- What one validation round records: the errors `validate` returned and
the keys for which a retry was attempted afterwards (empty when the round
ended the loop). -/
structure RoundLog where
  errors : List String
  retried : List String
deriving DecidableEq

/-- Result of the technical validation/retry loop. -/
structure TechResult where
  clean : Bool
  translated : JMap
  rounds : List RoundLog
deriving DecidableEq

/-- The retry pass over the failed keys of one round: each key is
re-requested with the errors quoting it as corrective feedback and stored
on success, exactly as the `for (const key of failedKeys)` loop does. -/
def doRetries (oracle : Oracle) (round : Nat) (keys : List String)
    (errors : List String) (tr : JMap) : JMap :=
  keys.foldl (fun acc k =>
    let keyErrors := errors.filter (fun e => strIncludes e ("\"" ++ k ++ "\""))
    match oracle.retryVal round k keyErrors with
    | none => acc
    | some v => JMap.set acc k v) tr

/-- One execution of the `for (let round = 1; round <= MAX_ROUNDS; ...)`
loop of `translate` from round `round` on, with `fuel` bounding the
remaining iterations (`fuel = MAX_ROUNDS + 1 - round` at every call, so
the fuel never runs out before the `round === MAX_ROUNDS` break). -/
def techLoopGo (oracle : Oracle) (source : JMap) (targetLang : String) :
    Nat → Nat → JMap → TechResult
  | 0, _, tr => { clean := false, translated := tr, rounds := [] }
  | fuel + 1, round, tr =>
    let v := validate tr source targetLang
    if v.errors.isEmpty then
      { clean := true, translated := v.translated,
        rounds := [{ errors := v.errors, retried := [] }] }
    else if v.errors.any isSecurityErr then
      { clean := false, translated := v.translated,
        rounds := [{ errors := v.errors, retried := [] }] }
    else if round = MAX_ROUNDS then
      { clean := false, translated := v.translated,
        rounds := [{ errors := v.errors, retried := [] }] }
    else
      let failedKeys := findFailedKeys v.errors source v.translated targetLang
      if failedKeys.isEmpty then
        { clean := false, translated := v.translated,
          rounds := [{ errors := v.errors, retried := [] }] }
      else
        let tr2 := doRetries oracle round failedKeys v.errors v.translated
        let rest := techLoopGo oracle source targetLang fuel (round + 1) tr2
        { clean := rest.clean, translated := rest.translated,
          rounds := { errors := v.errors, retried := failedKeys } :: rest.rounds }

/-- The whole technical validation/retry loop (phases 2-3). -/
def techLoop (oracle : Oracle) (source : JMap) (targetLang : String) (tr : JMap) :
    TechResult :=
  techLoopGo oracle source targetLang MAX_ROUNDS 1 tr

/-- Processing of one reviewer issue inside the semantic-fix loop: skip
unknown keys and array-typed keys, request a fix, run `validateValue` on
it and store the fix only when that per-key validation reports no errors
(otherwise the candidate is left untouched and the fix counts as
reverted).  Returns the updated candidate and whether a fix was applied. -/
def processIssue (oracle : Oracle) (source : JMap) (sround : Nat)
    (tr : JMap) (issue : Issue) : JMap × Bool :=
  match JMap.find source issue.key with
  | none => (tr, false)
  | some (JValue.arr _) => (tr, false)
  | some (JValue.str src) =>
    match oracle.fixVal sround issue tr with
    | none => (tr, false)
    | some value =>
      let techErrors := validateValue issue.key (JValue.str value) (JValue.str src)
      if techErrors.length > 0 then (tr, false)
      else (JMap.set tr issue.key (JValue.str value), true)

/-- One round of the semantic loop applied to every reported issue,
counting applied fixes. -/
def processIssues (oracle : Oracle) (source : JMap) (sround : Nat)
    (tr : JMap) (issues : List Issue) : JMap × Nat :=
  issues.foldl (fun acc issue =>
    let step := processIssue oracle source sround acc.1 issue
    (step.1, acc.2 + if step.2 then 1 else 0)) (tr, 0)

/-- The semantic review/fix loop (phases 4-5): review, stop when the
review fails or reports no issues, otherwise fix each issue and stop when
no fix was applied in a round. -/
def semLoopGo (oracle : Oracle) (source : JMap) : Nat → Nat → JMap → JMap
  | 0, _, tr => tr
  | fuel + 1, sround, tr =>
    match oracle.reviewIssues sround tr with
    | none => tr
    | some issues =>
      if issues.isEmpty then tr
      else
        let step := processIssues oracle source sround tr issues
        if step.2 = 0 then step.1
        else semLoopGo oracle source fuel (sround + 1) step.1

/-- The quote-normalization pass over every string value. -/
def normalizeAll (m : JMap) (targetLang : String) : JMap :=
  m.map (fun kv =>
    match kv.2 with
    | JValue.str s => (kv.1, JValue.str (normalizeQuotes s targetLang))
    | v => (kv.1, v))

/-- Externally visible outcome of one run of `translate` for one
language: the recorded log result, what was written to the per-language
output file (`none` when no write happened), the final state of the
output file given its previous contents, the final candidate, and the
per-round technical validation log. -/
structure RunOutcome where
  result : String
  written : Option JMap
  outFile : Option JMap
  finalTranslated : JMap
  techRounds : List RoundLog
deriving DecidableEq

/-- The tail of the script's `translate` from phase 2 on (lines
1204-1423): the technical validation/retry loop over the candidate
`translated0` assembled by phases 0-1, then - only when technically
clean - the semantic loop, quote normalization, key reordering and the
single file write; on a failed technical phase the run logs `failed` and
performs no write, leaving the previous file contents `prev` untouched.
The phases 0-1 that built `translated0` only add successfully translated
keys, so quantifying over `translated0` covers every reachable run.
(Named `translateRun` because Mathlib already owns `translate`.) -/
def translateRun (oracle : Oracle) (source : JMap) (targetLang : String)
    (translated0 : JMap) (prev : Option JMap) : RunOutcome :=
  let t := techLoop oracle source targetLang translated0
  if t.clean then
    let tr2 := semLoopGo oracle source MAX_SEMANTIC_ROUNDS 1 t.translated
    let tr3 := normalizeAll tr2 targetLang
    let ordered := reorderKeys tr3 source
    { result := "success", written := some ordered, outFile := some ordered,
      finalTranslated := tr3, techRounds := t.rounds }
  else
    { result := "failed", written := none, outFile := prev,
      finalTranslated := t.translated, techRounds := t.rounds }

-- ── basic character lemmas ──────────────────────────────

/-- Code-point characterization of `jsWhitespace`. -/
theorem jsWhitespace_iff (c : Char) : jsWhitespace c = true ↔
    c.toNat = 9 ∨ c.toNat = 10 ∨ c.toNat = 11 ∨ c.toNat = 12 ∨ c.toNat = 13 ∨
    c.toNat = 32 ∨ c.toNat = 160 ∨ c.toNat = 0x1680 ∨
    (0x2000 ≤ c.toNat ∧ c.toNat ≤ 0x200A) ∨ c.toNat = 0x2028 ∨ c.toNat = 0x2029 ∨
    c.toNat = 0x202F ∨ c.toNat = 0x205F ∨ c.toNat = 0x3000 ∨ c.toNat = 0xFEFF := by
  simp [jsWhitespace]
  tauto

/-- A character whose case canonicalization is a non-whitespace character
is itself non-whitespace (the whitespace class has no upper-case letters). -/
theorem lowerAscii_nonws (c x : Char) (hx : jsWhitespace x = false) (h : lowerAscii c = x) :
    jsWhitespace c = false := by
  unfold lowerAscii at h
  split at h
  · rename_i hr
    simp only [Bool.and_eq_true, decide_eq_true_eq] at hr
    rw [← Bool.not_eq_true]
    intro hc
    have := (jsWhitespace_iff c).1 hc
    omega
  · rw [← h] at hx
    exact hx

/-- A case-insensitive literal can only start consuming at a character
that canonicalizes to the literal's first character. -/
theorem ciConsume_head (p : Char) (ps t r : List Char)
    (h : ciConsume (p :: ps) t = some r) :
    ∃ c t2, t = c :: t2 ∧ lowerAscii c = p := by
  cases t with
  | nil => simp [ciConsume] at h
  | cons c t2 =>
    simp only [ciConsume] at h
    split at h
    · exact ⟨c, t2, rfl, by assumption⟩
    · simp at h

/-- A case-sensitive literal starts consuming at its own first character. -/
theorem csConsume_head (p : Char) (ps t r : List Char)
    (h : csConsume (p :: ps) t = some r) :
    ∃ t2, t = p :: t2 := by
  cases t with
  | nil => simp [csConsume] at h
  | cons c t2 =>
    simp only [csConsume] at h
    split at h
    · rename_i hc; subst hc; exact ⟨t2, rfl⟩
    · simp at h

/-- A list containing a non-whitespace character is not all-whitespace. -/
theorem all_false_of_mem (cs : List Char) (c : Char) (hc : c ∈ cs)
    (h : jsWhitespace c = false) : cs.all jsWhitespace = false := by
  rw [← Bool.not_eq_true]
  intro hall
  rw [List.all_eq_true] at hall
  have := hall c hc
  rw [h] at this
  exact Bool.false_ne_true this

/-- A pattern headed by a case-insensitive literal with a non-whitespace
first character can only match inside a list that contains a
non-whitespace character. -/
theorem testPat_lit_nonws (s : String) (ps : List Atom) (cs : List Char)
    (p : Char) (ps2 : List Char) (hs : s.data = p :: ps2)
    (hp : jsWhitespace p = false)
    (h : testPat (Atom.lit s :: ps) cs = true) :
    cs.all jsWhitespace = false := by
  unfold testPat at h
  rw [List.any_eq_true] at h
  obtain ⟨t, ht, hm⟩ := h
  rw [List.mem_tails] at ht
  simp only [matchAtoms, hs] at hm
  cases hci : ciConsume (p :: ps2) t with
  | none => rw [hci] at hm; exact absurd hm (by simp)
  | some r =>
    obtain ⟨c, t2, hteq, hlc⟩ := ciConsume_head p ps2 t r hci
    have hcw : jsWhitespace c = false := lowerAscii_nonws c p hp hlc
    have hcmem : c ∈ cs := ht.subset (hteq ▸ List.mem_cons_self c t2)
    exact all_false_of_mem cs c hcmem hcw

/-- Same for a case-sensitive literal head. -/
theorem testPat_verbatim_nonws (s : String) (ps : List Atom) (cs : List Char)
    (p : Char) (ps2 : List Char) (hs : s.data = p :: ps2)
    (hp : jsWhitespace p = false)
    (h : testPat (Atom.verbatim s :: ps) cs = true) :
    cs.all jsWhitespace = false := by
  unfold testPat at h
  rw [List.any_eq_true] at h
  obtain ⟨t, ht, hm⟩ := h
  rw [List.mem_tails] at ht
  simp only [matchAtoms, hs] at hm
  cases hci : csConsume (p :: ps2) t with
  | none => rw [hci] at hm; exact absurd hm (by simp)
  | some r =>
    obtain ⟨t2, hteq⟩ := csConsume_head p ps2 t r hci
    have hcmem : p ∈ cs := ht.subset (hteq ▸ List.mem_cons_self p t2)
    exact all_false_of_mem cs p hcmem hp

/-- Every dangerous pattern needs at least one non-whitespace character
in the value it matches (each starts with a literal whose first character
is one of `j`, `o`, `<`, `d`, `e`, `u`). -/
theorem dp_nonws (pl : List Atom × String) (hpl : pl ∈ DANGEROUS_PATTERNS)
    (cs : List Char) (h : testPat pl.1 cs = true) :
    cs.all jsWhitespace = false := by
  fin_cases hpl
  · exact testPat_lit_nonws _ _ _ 'j' _ rfl (by decide) h
  · exact testPat_lit_nonws _ _ _ 'o' _ rfl (by decide) h
  · exact testPat_lit_nonws _ _ _ '<' _ rfl (by decide) h
  · exact testPat_lit_nonws _ _ _ '<' _ rfl (by decide) h
  · exact testPat_lit_nonws _ _ _ '<' _ rfl (by decide) h
  · exact testPat_lit_nonws _ _ _ '<' _ rfl (by decide) h
  · exact testPat_lit_nonws _ _ _ '<' _ rfl (by decide) h
  · exact testPat_lit_nonws _ _ _ '<' _ rfl (by decide) h
  · exact testPat_lit_nonws _ _ _ '<' _ rfl (by decide) h
  · exact testPat_lit_nonws _ _ _ '<' _ rfl (by decide) h
  · exact testPat_lit_nonws _ _ _ '<' _ rfl (by decide) h
  · exact testPat_lit_nonws _ _ _ '<' _ rfl (by decide) h
  · exact testPat_lit_nonws _ _ _ '<' _ rfl (by decide) h
  · exact testPat_lit_nonws _ _ _ 'd' _ rfl (by decide) h
  · exact testPat_lit_nonws _ _ _ 'e' _ rfl (by decide) h
  · exact testPat_lit_nonws _ _ _ 'u' _ rfl (by decide) h
  · exact testPat_verbatim_nonws _ _ _ '<' _ rfl (by decide) h

theorem lookup_mem (m : JMap) (k : String) (v : JValue)
    (h : m.lookup k = some v) : k ∈ JMap.keys m := by
  induction m with
  | nil => simp [List.lookup] at h
  | cons kv rest ih =>
    rw [List.lookup_cons] at h
    by_cases hk : k == kv.1
    · have hk2 : k = kv.1 := beq_iff_eq.1 hk
      simp [JMap.keys, hk2]
    · rw [Bool.not_eq_true] at hk
      rw [hk] at h
      have := ih h
      simp [JMap.keys] at this ⊢
      exact Or.inr this

theorem contains_of_mem (l : List String) (k : String) (h : k ∈ l) :
    l.contains k = true := List.elem_iff.2 h

theorem lookup_filter_key (p : String → Bool) (m : JMap) (k : String)
    (hp : p k = true) :
    (m.filter (fun kv => p kv.1)).lookup k = m.lookup k := by
  induction m with
  | nil => simp
  | cons kv rest ih =>
    obtain ⟨k1, v1⟩ := kv
    by_cases hfk : p k1
    · simp only [List.filter_cons, hfk, if_true, List.lookup_cons]
      by_cases hk : k == k1
      · rw [hk]
      · rw [Bool.not_eq_true] at hk
        rw [hk]
        exact ih
    · have hfk2 : p k1 = false := by simpa using hfk
      simp only [List.filter_cons, hfk2, Bool.false_eq_true, if_false, List.lookup_cons]
      have hk : (k == k1) = false := by
        rw [Bool.eq_false_iff]
        intro hc
        exact hfk (beq_iff_eq.1 hc ▸ hp)
      rw [hk]
      exact ih

/-- The extra-key deletion does not change lookups of source keys. -/
theorem find_deleteExtras (translated source : JMap) (k : String)
    (hk : k ∈ JMap.keys source) :
    JMap.find (deleteExtras translated source) k = JMap.find translated k := by
  unfold deleteExtras JMap.find
  exact lookup_filter_key _ translated k (contains_of_mem _ k hk)

-- ── claim C1 infrastructure ─────────────────────────────

/-- A security-pattern error message carries the fatal prefix. -/
theorem isSecurityErr_secPattern (l k : String) :
    isSecurityErr (secPatternMsg l k) = true := by
  unfold isSecurityErr secPatternMsg
  rw [List.isPrefixOf_iff_prefix]
  simp only [String.data_append, List.append_assoc]
  exact List.IsPrefix.trans (by decide) (List.prefix_append _ _)

/-- A matching dangerous pattern puts its security error among the errors
of the per-string checks for the key. -/
theorem secPattern_mem_perString (lang key s t : String) (pl : List Atom × String)
    (hpl : pl ∈ DANGEROUS_PATTERNS) (hmatch : testPat pl.1 t.data = true) :
    secPatternMsg pl.2 key ∈ (perStringChecks lang key s t).1 := by
  have hone : secPatternMsg pl.2 key ∈ DANGEROUS_PATTERNS.flatMap (fun pl2 =>
      if testPat pl2.1 t.data then [secPatternMsg pl2.2 key] else []) :=
    List.mem_flatMap.2 ⟨pl, hpl, by simp [hmatch]⟩
  have hskip : (trimEmpty t && !trimEmpty s) = false := by
    have := dp_nonws pl hpl t.data hmatch
    unfold trimEmpty
    rw [this]
    rfl
  unfold perStringChecks
  rw [hskip]
  simp only [Bool.false_eq_true, if_false]
  simp only [List.mem_append]
  tauto

/-- Any error of a key's per-string checks is among `validate`'s errors,
provided the key maps to strings on both sides. -/
theorem perString_mem_validate (translated source : JMap) (lang key s t : String)
    (hsrc : JMap.find source key = some (JValue.str s))
    (htr : JMap.find translated key = some (JValue.str t))
    (e : String) (he : e ∈ (perStringChecks lang key s t).1) :
    e ∈ (validate translated source lang).errors := by
  have hkmem : key ∈ JMap.keys source := lookup_mem source key _ hsrc
  have htr2 : JMap.find (deleteExtras translated source) key = some (JValue.str t) := by
    rw [find_deleteExtras translated source key hkmem]
    exact htr
  have hpair : perKeyPair (deleteExtras translated source) source lang key =
      perStringChecks lang key s t := by
    unfold perKeyPair
    rw [hsrc, htr2]
  have hper : e ∈ perErrsOf (deleteExtras translated source) source lang := by
    unfold perErrsOf
    exact List.mem_flatMap.2 ⟨key, hkmem, by rw [hpair]; exact he⟩
  unfold validate validateMainErrs
  simp only [List.mem_append]
  tauto

/-- In the technical loop, a round whose errors contain a security error
is terminal: nothing is retried in it and the loop ends unclean. -/
theorem techLoopGo_security (oracle : Oracle) (source : JMap) (targetLang : String) :
    ∀ fuel round tr, ∀ r ∈ (techLoopGo oracle source targetLang fuel round tr).rounds,
      (∃ e ∈ r.errors, isSecurityErr e = true) →
      r.retried = [] ∧ (techLoopGo oracle source targetLang fuel round tr).clean = false := by
  intro fuel
  induction fuel with
  | zero => intro round tr r hr; simp [techLoopGo] at hr
  | succ fuel ih =>
    intro round tr r hr hsec
    by_cases h1 : (validate tr source targetLang).errors.isEmpty
    · rw [techLoopGo] at hr
      simp only [h1, if_true] at hr
      simp at hr
      subst hr
      obtain ⟨e, he, _⟩ := hsec
      rw [List.isEmpty_iff] at h1
      rw [h1] at he
      simp at he
    · have h1f : (validate tr source targetLang).errors.isEmpty = false := by
        simpa using h1
      by_cases h2 : (validate tr source targetLang).errors.any isSecurityErr
      · rw [techLoopGo] at hr ⊢
        simp only [h1f, Bool.false_eq_true, if_false, h2, if_true] at hr ⊢
        simp at hr
        subst hr
        exact ⟨rfl, by trivial⟩
      · have h2f : (validate tr source targetLang).errors.any isSecurityErr = false := by
          simpa using h2
        have hnosec : ¬ ∃ e ∈ (validate tr source targetLang).errors, isSecurityErr e = true := by
          intro ⟨e, he, hse⟩
          exact h2 (List.any_eq_true.2 ⟨e, he, hse⟩)
        by_cases h3 : round = MAX_ROUNDS
        · rw [techLoopGo] at hr ⊢
          simp only [h1f, Bool.false_eq_true, if_false, h2f, h3, if_true] at hr ⊢
          simp at hr
          subst hr
          exact absurd hsec hnosec
        · by_cases h4 : (findFailedKeys (validate tr source targetLang).errors source
              (validate tr source targetLang).translated targetLang).isEmpty
          · rw [techLoopGo] at hr ⊢
            simp only [h1f, Bool.false_eq_true, if_false, h2f, h3, h4, if_true] at hr ⊢
            simp at hr
            subst hr
            exact absurd hsec hnosec
          · have h4f : (findFailedKeys (validate tr source targetLang).errors source
                (validate tr source targetLang).translated targetLang).isEmpty = false := by
              simpa using h4
            rw [techLoopGo] at hr ⊢
            simp only [h1f, Bool.false_eq_true, if_false, h2f, h3, h4f] at hr ⊢
            simp only [List.mem_cons] at hr
            rcases hr with hr | hr
            · subst hr
              exact absurd hsec hnosec
            · exact ih (round + 1) _ r hr hsec

/-- Oracle whose every generation call fails (used by concrete runs). -/
def trivOracle : Oracle :=
  { retryVal := fun _ _ _ => none,
    reviewIssues := fun _ _ => none,
    fixVal := fun _ _ _ => none }

/-- C1: Security fatality.  (a) For every pattern of the dangerous-pattern
catalogue, a candidate string value matching the pattern makes `validate`
emit an error carrying the `SECURITY:` prefix, regardless of the rest of
the candidate.  (b) In every run, a validation round whose errors contain
a `SECURITY:`-prefixed error is terminal: no key is retried in it, the
run's recorded result is `failed`, the translation file is not written and
the previously published file is left untouched. -/
theorem c1_security_fatality :
    (∀ pl ∈ DANGEROUS_PATTERNS, ∀ (source translated : JMap) (targetLang key src tgt : String),
        JMap.find source key = some (JValue.str src) →
        JMap.find translated key = some (JValue.str tgt) →
        testPat pl.1 tgt.data = true →
        ∃ e ∈ (validate translated source targetLang).errors, isSecurityErr e = true) ∧
    (∀ (oracle : Oracle) (source : JMap) (targetLang : String) (translated0 : JMap)
        (prev : Option JMap),
        ∀ r ∈ (translateRun oracle source targetLang translated0 prev).techRounds,
        (∃ e ∈ r.errors, isSecurityErr e = true) →
        r.retried = [] ∧
        (translateRun oracle source targetLang translated0 prev).result = "failed" ∧
        (translateRun oracle source targetLang translated0 prev).written = none ∧
        (translateRun oracle source targetLang translated0 prev).outFile = prev) := by
  constructor
  · intro pl hpl source translated targetLang key src tgt hsrc htr hmatch
    exact ⟨secPatternMsg pl.2 key,
      perString_mem_validate translated source targetLang key src tgt hsrc htr _
        (secPattern_mem_perString targetLang key src tgt pl hpl hmatch),
      isSecurityErr_secPattern pl.2 key⟩
  · intro oracle source targetLang tr0 prev r hr hsec
    have htech : (translateRun oracle source targetLang tr0 prev).techRounds =
        (techLoop oracle source targetLang tr0).rounds := by
      unfold translateRun
      by_cases hc : (techLoop oracle source targetLang tr0).clean
      · simp only [hc, if_true]
      · rw [Bool.not_eq_true] at hc
        simp only [hc, Bool.false_eq_true, if_false]
    rw [htech] at hr
    have hloop := techLoopGo_security oracle source targetLang MAX_ROUNDS 1 tr0 r hr hsec
    have hcf : (techLoop oracle source targetLang tr0).clean = false := hloop.2
    refine ⟨hloop.1, ?_, ?_, ?_⟩ <;> simp [translateRun, hcf]

/-- C1 witness: the `<script` pattern at the candidate value `x<script`
for the key `a`, and the run this candidate produces. -/
theorem c1_security_fatality_witness :
    ((([Atom.lit "<script"], "<script> tag") ∈ DANGEROUS_PATTERNS ∧
      JMap.find [("a", JValue.str "hello")] "a" = some (JValue.str "hello") ∧
      JMap.find [("a", JValue.str "x<script")] "a" = some (JValue.str "x<script") ∧
      testPat [Atom.lit "<script"] "x<script".data = true ∧
      (∃ e ∈ (validate [("a", JValue.str "x<script")] [("a", JValue.str "hello")] "fr").errors,
        isSecurityErr e = true)) ∧
     ({ errors := [secPatternMsg "<script> tag" "a"], retried := [] } ∈
        (translateRun trivOracle [("a", JValue.str "x<script")] "fr"
          [("a", JValue.str "x<script")] none).techRounds ∧
      (∃ e ∈ ({ errors := [secPatternMsg "<script> tag" "a"], retried := [] } : RoundLog).errors,
        isSecurityErr e = true) ∧
      (translateRun trivOracle [("a", JValue.str "x<script")] "fr"
        [("a", JValue.str "x<script")] none).result = "failed" ∧
      (translateRun trivOracle [("a", JValue.str "x<script")] "fr"
        [("a", JValue.str "x<script")] none).written = none ∧
      (translateRun trivOracle [("a", JValue.str "x<script")] "fr"
        [("a", JValue.str "x<script")] none).outFile = none)) := by
  have hdp : (([Atom.lit "<script"], "<script> tag") ∈ DANGEROUS_PATTERNS) := by decide
  have hmem : ({ errors := [secPatternMsg "<script> tag" "a"], retried := [] } : RoundLog) ∈
      (translateRun trivOracle [("a", JValue.str "x<script")] "fr"
        [("a", JValue.str "x<script")] none).techRounds := by
    rw [show (translateRun trivOracle [("a", JValue.str "x<script")] "fr"
        [("a", JValue.str "x<script")] none).techRounds =
      [{ errors := [secPatternMsg "<script> tag" "a"], retried := [] }] from by rfl]
    exact List.mem_cons_self _ _
  have hsec : ∃ e ∈ ({ errors := [secPatternMsg "<script> tag" "a"], retried := [] } : RoundLog).errors,
      isSecurityErr e = true := ⟨_, List.mem_cons_self _ _, by decide⟩
  have h2 := c1_security_fatality.2 trivOracle [("a", JValue.str "x<script")] "fr"
    [("a", JValue.str "x<script")] none _ hmem hsec
  exact ⟨⟨hdp, by decide, by decide, by decide,
      c1_security_fatality.1 _ hdp _ _ "fr" "a" "hello" "x<script" (by decide) (by decide) (by decide)⟩,
    hmem, hsec, h2.2.1, h2.2.2.1, h2.2.2.2⟩

/-- The technical loop ends clean only after a round whose validation
returned no errors. -/
theorem techLoopGo_clean (oracle : Oracle) (source : JMap) (targetLang : String) :
    ∀ fuel round tr, (techLoopGo oracle source targetLang fuel round tr).clean = true →
      ∃ r ∈ (techLoopGo oracle source targetLang fuel round tr).rounds, r.errors = [] := by
  intro fuel
  induction fuel with
  | zero => intro round tr h; simp [techLoopGo] at h
  | succ fuel ih =>
    intro round tr h
    by_cases h1 : (validate tr source targetLang).errors.isEmpty
    · rw [techLoopGo]
      simp only [h1, if_true]
      exact ⟨_, List.mem_cons_self _ _, List.isEmpty_iff.1 h1⟩
    · have h1f : (validate tr source targetLang).errors.isEmpty = false := by simpa using h1
      rw [techLoopGo] at h ⊢
      simp only [h1f, Bool.false_eq_true, if_false] at h ⊢
      by_cases h2 : (validate tr source targetLang).errors.any isSecurityErr
      · simp only [h2, if_true] at h
        simp at h
      · have h2f : (validate tr source targetLang).errors.any isSecurityErr = false := by
          simpa using h2
        simp only [h2f, Bool.false_eq_true, if_false] at h ⊢
        by_cases h3 : round = MAX_ROUNDS
        · simp only [h3, if_true] at h
          simp at h
        · simp only [h3, if_false] at h ⊢
          by_cases h4 : (findFailedKeys (validate tr source targetLang).errors source
              (validate tr source targetLang).translated targetLang).isEmpty
          · simp only [h4, if_true] at h
            simp at h
          · have h4f : (findFailedKeys (validate tr source targetLang).errors source
                (validate tr source targetLang).translated targetLang).isEmpty = false := by
              simpa using h4
            simp only [h4f, Bool.false_eq_true, if_false] at h ⊢
            obtain ⟨r, hr, hre⟩ := ih (round + 1) _ (by simpa using h)
            exact ⟨r, List.mem_cons_of_mem _ hr, hre⟩

/-- C2: the translation file is written only after some validation round
returned zero errors, and a run in which every round's validation
reported errors records `failed`, writes nothing and leaves the
previously published file untouched. -/
theorem c2_write_only_on_success :
    (∀ (oracle : Oracle) (source : JMap) (targetLang : String) (translated0 : JMap)
        (prev : Option JMap),
        (translateRun oracle source targetLang translated0 prev).written ≠ none →
        ∃ r ∈ (translateRun oracle source targetLang translated0 prev).techRounds,
          r.errors = []) ∧
    (∀ (oracle : Oracle) (source : JMap) (targetLang : String) (translated0 : JMap)
        (prev : Option JMap),
        (∀ r ∈ (translateRun oracle source targetLang translated0 prev).techRounds,
          r.errors ≠ []) →
        (translateRun oracle source targetLang translated0 prev).result = "failed" ∧
        (translateRun oracle source targetLang translated0 prev).written = none ∧
        (translateRun oracle source targetLang translated0 prev).outFile = prev) := by
  have key : ∀ (oracle : Oracle) (source : JMap) (targetLang : String) (translated0 : JMap)
      (prev : Option JMap),
      (translateRun oracle source targetLang translated0 prev).written ≠ none →
      ∃ r ∈ (translateRun oracle source targetLang translated0 prev).techRounds,
        r.errors = [] := by
    intro oracle source targetLang tr0 prev hw
    by_cases hc : (techLoop oracle source targetLang tr0).clean
    · have htech : (translateRun oracle source targetLang tr0 prev).techRounds =
          (techLoop oracle source targetLang tr0).rounds := by
        unfold translateRun
        simp only [hc, if_true]
      rw [htech]
      exact techLoopGo_clean oracle source targetLang MAX_ROUNDS 1 tr0 hc
    · exfalso
      rw [Bool.not_eq_true] at hc
      have : (translateRun oracle source targetLang tr0 prev).written = none := by
        simp [translateRun, hc]
      exact hw this
  refine ⟨key, ?_⟩
  intro oracle source targetLang tr0 prev hall
  have hc : (techLoop oracle source targetLang tr0).clean = false := by
    by_contra hcc
    rw [Bool.not_eq_false] at hcc
    have htech : (translateRun oracle source targetLang tr0 prev).techRounds =
        (techLoop oracle source targetLang tr0).rounds := by
      unfold translateRun
      simp only [hcc, if_true]
    obtain ⟨r, hr, hre⟩ := techLoopGo_clean oracle source targetLang MAX_ROUNDS 1 tr0 hcc
    exact hall r (htech ▸ hr) hre
  refine ⟨?_, ?_, ?_⟩ <;> simp [translateRun, hc]

/-- C2 witness: a run whose candidate is missing the only source key and
whose every retry fails exhausts all rounds and ends with no write. -/
theorem c2_write_only_on_success_witness :
    ((∀ r ∈ (translateRun trivOracle [("t", JValue.str "Hello")] "fr" [] none).techRounds,
        r.errors ≠ []) ∧
     (translateRun trivOracle [("t", JValue.str "Hello")] "fr" [] none).result = "failed" ∧
     (translateRun trivOracle [("t", JValue.str "Hello")] "fr" [] none).written = none ∧
     (translateRun trivOracle [("t", JValue.str "Hello")] "fr" [] none).outFile = none) := by
  have hall : ∀ r ∈ (translateRun trivOracle [("t", JValue.str "Hello")] "fr" [] none).techRounds,
      r.errors ≠ [] := by decide
  exact ⟨hall, c2_write_only_on_success.2 trivOracle [("t", JValue.str "Hello")] "fr" [] none hall⟩

/-- C3: Semantic-fix revert atomicity: a fix that fails the per-key check
`validateValue` leaves the candidate exactly as it was (reverted), and a
fix is stored only when `validateValue` returns no errors. -/
theorem c3_semantic_fix_revert :
    ∀ (oracle : Oracle) (source : JMap) (sround : Nat) (tr : JMap) (issue : Issue)
      (src fixv : String),
      JMap.find source issue.key = some (JValue.str src) →
      oracle.fixVal sround issue tr = some fixv →
      ((validateValue issue.key (JValue.str fixv) (JValue.str src) ≠ [] →
          processIssue oracle source sround tr issue = (tr, false)) ∧
       ((processIssue oracle source sround tr issue).2 = true →
          validateValue issue.key (JValue.str fixv) (JValue.str src) = [] ∧
          (processIssue oracle source sround tr issue).1 =
            JMap.set tr issue.key (JValue.str fixv))) := by
  intro oracle source sround tr issue src fixv hsrc hfix
  unfold processIssue
  rw [hsrc, hfix]
  dsimp only
  by_cases hv : validateValue issue.key (JValue.str fixv) (JValue.str src) = []
  · have hlen : ¬ (validateValue issue.key (JValue.str fixv) (JValue.str src)).length > 0 := by
      rw [hv]
      simp
    rw [if_neg hlen]
    exact ⟨fun h => absurd hv h, fun _ => ⟨hv, rfl⟩⟩
  · have hlen : (validateValue issue.key (JValue.str fixv) (JValue.str src)).length > 0 :=
      List.length_pos.2 hv
    rw [if_pos hlen]
    exact ⟨fun _ => rfl, fun h => by simp at h⟩

/-- C3 witness: a fix that reintroduces a dangerous pattern is reverted. -/
theorem c3_semantic_fix_revert_witness :
    (JMap.find [("k", JValue.str "hello")] "k" = some (JValue.str "hello") ∧
     validateValue "k" (JValue.str "x<script") (JValue.str "hello") ≠ []) ∧
    processIssue
      { retryVal := fun _ _ _ => none,
        reviewIssues := fun _ _ => none,
        fixVal := fun _ _ _ => some "x<script" }
      [("k", JValue.str "hello")] 1 [("k", JValue.str "czesc")]
      { key := "k", itype := "untranslated", description := "d" } =
      ([("k", JValue.str "czesc")], false) := by
  refine ⟨⟨by decide, by decide⟩, ?_⟩
  exact (c3_semantic_fix_revert
    { retryVal := fun _ _ _ => none,
      reviewIssues := fun _ _ => none,
      fixVal := fun _ _ _ => some "x<script" }
    [("k", JValue.str "hello")] 1 [("k", JValue.str "czesc")]
    { key := "k", itype := "untranslated", description := "d" }
    "hello" "x<script" (by decide) rfl).1 (by decide)

/-- Invariant preservation through a left fold. -/
theorem foldl_preserve {α β : Type} (P : α → Prop) (f : α → β → α)
    (h : ∀ a b, P a → P (f a b)) : ∀ (l : List β) (a : α), P a → P (l.foldl f a) := by
  intro l
  induction l with
  | nil => intro a ha; exact ha
  | cons b rest ih => intro a ha; exact ih (f a b) (h a b ha)

/-- Keys produced by `addKey` come from the accumulator or the added key. -/
theorem mem_addKey (ks : List String) (k2 k : String) (h : k ∈ addKey ks k2) :
    k ∈ ks ∨ k = k2 := by
  unfold addKey at h
  split at h
  · exact Or.inl h
  · rw [List.mem_append] at h
    rcases h with h | h
    · exact Or.inl h
    · simp at h
      exact Or.inr h

/-- One step of `findFailedKeys` preserves "every key is a source key". -/
theorem findFailedKeysStep_sound (source translated : JMap) (acc : List String)
    (err : String) (hacc : ∀ k ∈ acc, JMap.hasKey source k = true) :
    ∀ k ∈ findFailedKeysStep source translated acc err, JMap.hasKey source k = true := by
  unfold findFailedKeysStep
  split
  · apply foldl_preserve (fun a => ∀ k ∈ a, JMap.hasKey source k = true)
    · intro a n ha k hk
      dsimp only at hk
      split at hk
      · rcases mem_addKey _ _ _ hk with h | h
        · exact ha k h
        · rename_i hhas
          rw [h]
          exact hhas
      · exact ha k hk
    · exact hacc
  · split
    · apply foldl_preserve (fun a => ∀ k ∈ a, JMap.hasKey source k = true)
      · intro a n ha k hk
        split at hk
        · rename_i v1 v2 heq1 heq2
          split at hk
          · rcases mem_addKey _ _ _ hk with h | h
            · exact ha k h
            · rw [h]
              unfold JMap.hasKey
              unfold JMap.find at heq1
              rw [heq1]
              rfl
          · exact ha k hk
        · exact ha k hk
      · exact hacc
    · split
      · rename_i k2 heq
        intro k hk
        split at hk
        · rcases mem_addKey _ _ _ hk with h | h
          · exact hacc k h
          · rename_i hhas
            rw [h]
            exact hhas
        · exact hacc k hk
      · exact hacc

/-- C10: Retry-key extraction soundness: every key `findFailedKeys`
returns is a key of the source mapping, whatever the error messages
contain. -/
theorem c10_failed_keys_sound :
    ∀ (errors : List String) (source translated : JMap) (targetLang : String),
      ∀ k ∈ findFailedKeys errors source translated targetLang,
        JMap.hasKey source k = true := by
  intro errors source translated targetLang
  unfold findFailedKeys
  apply foldl_preserve (fun a => ∀ k ∈ a, JMap.hasKey source k = true)
  · intro a e ha
    exact findFailedKeysStep_sound source translated a e ha
  · intro k hk
    simp at hk

/-- C10 witness: quoted garbage in an error message is never turned into
a retry of a key absent from the source. -/
theorem c10_failed_keys_sound_witness :
    "tags" ∈ findFailedKeys [arrLenMsg "tags" 3 2, "oops \"ghost\" here"]
      [("tags", JValue.arr ["a", "b", "c"])] [("tags", JValue.arr ["x", "y"])] "pl" ∧
    JMap.hasKey [("tags", JValue.arr ["a", "b", "c"])] "tags" = true := by
  refine ⟨by decide, ?_⟩
  exact c10_failed_keys_sound [arrLenMsg "tags" 3 2, "oops \"ghost\" here"]
    [("tags", JValue.arr ["a", "b", "c"])] [("tags", JValue.arr ["x", "y"])] "pl"
    "tags" (by decide)

-- ── claim C9: key reordering ────────────────────────────

/-- Key membership and lookup success coincide. -/
theorem hasKey_iff_mem (m : JMap) (k : String) :
    JMap.hasKey m k = true ↔ k ∈ JMap.keys m := by
  constructor
  · intro h
    unfold JMap.hasKey at h
    cases hl : m.lookup k with
    | none => rw [hl] at h; simp at h
    | some v => exact lookup_mem m k v hl
  · intro h
    induction m with
    | nil => simp [JMap.keys] at h
    | cons kv rest ih =>
      obtain ⟨k1, v1⟩ := kv
      unfold JMap.hasKey
      rw [List.lookup_cons]
      by_cases hk : k = k1
      · subst hk
        simp
      · have : (k == k1) = false := by simp [hk]
        rw [this]
        simp only [JMap.keys, List.map_cons, List.mem_cons] at h
        rcases h with h | h
        · exact absurd h hk
        · exact ih h

/-- A failed key membership makes the lookup fail. -/
theorem lookup_eq_none_of_not_mem (m : JMap) (k : String)
    (h : k ∉ JMap.keys m) : m.lookup k = none := by
  cases hl : m.lookup k with
  | none => rfl
  | some v => exact absurd (lookup_mem m k v hl) h

/-- Lookup in the reordered map built over a key list. -/
theorem lookup_filterMapKeys (cand : JMap) (ks : List String) (k : String) :
    (ks.filterMap (fun k2 => (List.lookup k2 cand).map (fun v => (k2, v)))).lookup k =
      if k ∈ ks then cand.lookup k else none := by
  induction ks with
  | nil => simp
  | cons k2 rest ih =>
    rw [List.filterMap_cons]
    by_cases hk : k = k2
    · subst hk
      cases hl : List.lookup k cand with
      | none =>
        simp only [Option.map_none']
        rw [ih]
        by_cases hkr : k ∈ rest
        · simp [hkr, hl]
        · simp [hkr, hl]
      | some v =>
        simp only [Option.map_some']
        rw [List.lookup_cons]
        simp only [beq_self_eq_true]
        simp [hl]
    · cases hl : List.lookup k2 cand with
      | none =>
        simp only [Option.map_none']
        rw [ih]
        by_cases hkr : k ∈ rest
        · simp [hkr, hk]
        · simp [hkr, hk]
      | some v =>
        simp only [Option.map_some']
        rw [List.lookup_cons]
        have : (k == k2) = false := by simp [hk]
        rw [this]
        rw [ih]
        by_cases hkr : k ∈ rest
        · simp [hkr, hk]
        · simp [hkr, hk]

/-- The reordered map lists exactly the found keys, in the given order. -/
theorem keys_filterMapKeys (cand : JMap) (ks : List String)
    (hall : ∀ k ∈ ks, JMap.hasKey cand k = true) :
    JMap.keys (ks.filterMap (fun k2 => (List.lookup k2 cand).map (fun v => (k2, v)))) = ks := by
  induction ks with
  | nil => simp [JMap.keys]
  | cons k2 rest ih =>
    rw [List.filterMap_cons]
    have h2 := hall k2 (List.mem_cons_self _ _)
    unfold JMap.hasKey at h2
    cases hl : List.lookup k2 cand with
    | none =>
      rw [hl] at h2
      simp at h2
    | some v =>
      simp only [Option.map_some']
      simp only [JMap.keys, List.map_cons]
      have := ih (fun k hk => hall k (List.mem_cons_of_mem _ hk))
      unfold JMap.keys at this
      rw [this]

/-- C9: for a candidate whose keys are a permutation of the source's,
`reorderKeys` returns exactly the candidate's entries in source key
order, and the persisted file of a successful run is exactly
`reorderKeys` of the final candidate. -/
theorem c9_reorder_keys :
    (∀ (cand source : JMap), (JMap.keys cand).Perm (JMap.keys source) →
       JMap.keys (reorderKeys cand source) = JMap.keys source ∧
       ∀ k, JMap.find (reorderKeys cand source) k = JMap.find cand k) ∧
    (∀ (oracle : Oracle) (source : JMap) (targetLang : String) (translated0 : JMap)
       (prev : Option JMap) (w : JMap),
       (translateRun oracle source targetLang translated0 prev).written = some w →
       w = reorderKeys (translateRun oracle source targetLang translated0 prev).finalTranslated
             source) := by
  constructor
  · intro cand source hperm
    constructor
    · unfold reorderKeys JMap.find
      apply keys_filterMapKeys
      intro k hk
      rw [hasKey_iff_mem]
      exact (hperm.mem_iff).2 hk
    · intro k
      unfold reorderKeys JMap.find
      rw [lookup_filterMapKeys cand (JMap.keys source) k]
      by_cases hk : k ∈ JMap.keys source
      · simp [hk]
      · rw [if_neg hk]
        have : k ∉ JMap.keys cand := fun hc => hk ((hperm.mem_iff).1 hc)
        exact (lookup_eq_none_of_not_mem cand k this).symm
  · intro oracle source targetLang tr0 prev w hw
    by_cases hc : (techLoop oracle source targetLang tr0).clean
    · unfold translateRun at hw ⊢
      simp only [hc, if_true] at hw ⊢
      simp at hw
      rw [← hw]
    · rw [Bool.not_eq_true] at hc
      unfold translateRun at hw
      simp only [hc, Bool.false_eq_true, if_false] at hw
      simp at hw

/-- C9 witness: a two-key permutation, and a successful concrete run. -/
theorem c9_reorder_keys_witness :
    ((JMap.keys [("b", JValue.str "y"), ("a", JValue.str "x")]).Perm
       (JMap.keys [("a", JValue.str "p"), ("b", JValue.str "q")]) ∧
     JMap.keys (reorderKeys [("b", JValue.str "y"), ("a", JValue.str "x")]
         [("a", JValue.str "p"), ("b", JValue.str "q")]) =
       JMap.keys [("a", JValue.str "p"), ("b", JValue.str "q")]) ∧
    ((translateRun trivOracle [("t", JValue.str "Hello")] "en"
        [("t", JValue.str "Bonjour")] none).written = some [("t", JValue.str "Bonjour")] ∧
     [("t", JValue.str "Bonjour")] =
       reorderKeys (translateRun trivOracle [("t", JValue.str "Hello")] "en"
           [("t", JValue.str "Bonjour")] none).finalTranslated
         [("t", JValue.str "Hello")]) := by
  have hperm : (JMap.keys [("b", JValue.str "y"), ("a", JValue.str "x")]).Perm
      (JMap.keys [("a", JValue.str "p"), ("b", JValue.str "q")]) := by decide
  have hw : (translateRun trivOracle [("t", JValue.str "Hello")] "en"
      [("t", JValue.str "Bonjour")] none).written = some [("t", JValue.str "Bonjour")] := by decide
  exact ⟨⟨hperm, (c9_reorder_keys.1 _ _ hperm).1⟩,
    hw, c9_reorder_keys.2 trivOracle [("t", JValue.str "Hello")] "en"
      [("t", JValue.str "Bonjour")] none [("t", JValue.str "Bonjour")] hw⟩

-- ── message-shape lemmas ────────────────────────────────

/-- Membership in a conditional singleton. -/
theorem mem_if_singleton {c : Prop} [Decidable c] {e x : String}
    (h : e ∈ (if c then [x] else [])) : c ∧ e = x := by
  split at h
  · rename_i hc
    simp at h
    exact ⟨hc, h⟩
  · simp at h

/-- Lists with incompatible prefixes are different however they end. -/
theorem append_ne_append (p q a b : List Char) (h1 : ¬ p <+: q) (h2 : ¬ q <+: p) :
    p ++ a ≠ q ++ b := by
  intro he
  have hp : p <+: q ++ b := he ▸ List.prefix_append p a
  have hq : q <+: q ++ b := List.prefix_append q b
  rcases List.prefix_or_prefix_of_prefix hp hq with h | h
  · exact h1 h
  · exact h2 h

/-- A prefix of a string is a prefix of any of its right extensions. -/
theorem prefix_strcat_trans {p : List Char} {s : String} (h : p <+: s.data)
    (t : String) : p <+: (s ++ t).data := by
  rw [String.data_append]
  exact h.trans (List.prefix_append _ _)

/-- The constant message prefixes of the per-string checks other than the
protected-name check. -/
def PS_PREFIXES : List String :=
  ["Empty translation for \"", "HTML tag mismatch on \"", "Unclosed <",
   "Protected title missing in \"", "Suspiciously short \"",
   "Suspiciously long \"", "Arrow symbol → missing in \"", "SECURITY: "]

/-- Every error of the per-string checks is either a protected-name error
(with the data that emitted it) or carries one of the other fixed message
prefixes. -/
theorem perStringChecks_shape (lang k s t : String) :
    ∀ e ∈ (perStringChecks lang k s t).1,
      (∃ name w, name ∈ PROTECTED_NAMES ∧ strIncludes s name = true ∧
        w ∈ significantWords name ∧ strIncludes t (stemOf w) = false ∧
        e = nameMsg k name (stemOf w)) ∨
      (∃ p ∈ PS_PREFIXES, p.data <+: e.data) := by
  intro e he
  unfold perStringChecks at he
  split at he
  · simp at he
    subst he
    refine Or.inr ⟨"Empty translation for \"", by decide, ?_⟩
    unfold emptyMsg
    repeat apply prefix_strcat_trans
    exact List.prefix_refl _
  · simp only [List.mem_append] at he
    rcases he with ((((((((((he | he) | he) | he) | he) | he) | he) | he) | he) | he) | he)
    · rw [List.mem_flatMap] at he
      obtain ⟨tag, _, he⟩ := he
      rw [List.mem_append] at he
      rcases he with he | he
      · obtain ⟨_, he⟩ := mem_if_singleton he
        subst he
        refine Or.inr ⟨"HTML tag mismatch on \"", by decide, ?_⟩
        unfold tagMismatchMsg
        repeat apply prefix_strcat_trans
        exact List.prefix_refl _
      · obtain ⟨_, he⟩ := mem_if_singleton he
        subst he
        refine Or.inr ⟨"Unclosed <", by decide, ?_⟩
        unfold unclosedMsg
        repeat apply prefix_strcat_trans
        exact List.prefix_refl _
    · rw [List.mem_flatMap] at he
      obtain ⟨name, hname, he⟩ := he
      split at he
      · rename_i hinc
        rw [List.mem_flatMap] at he
        obtain ⟨w, hw, he⟩ := he
        split at he
        · simp at he
        · rename_i hstem
          simp at he
          subst he
          exact Or.inl ⟨name, w, hname, hinc, hw, by simpa using hstem, rfl⟩
      · simp at he
    · rw [List.mem_flatMap] at he
      obtain ⟨title, _, he⟩ := he
      obtain ⟨_, he⟩ := mem_if_singleton he
      subst he
      refine Or.inr ⟨"Protected title missing in \"", by decide, ?_⟩
      unfold titleMsg
      repeat apply prefix_strcat_trans
      exact List.prefix_refl _
    · obtain ⟨_, he⟩ := mem_if_singleton he
      subst he
      refine Or.inr ⟨"Suspiciously short \"", by decide, ?_⟩
      unfold shortMsg
      repeat apply prefix_strcat_trans
      exact List.prefix_refl _
    · obtain ⟨_, he⟩ := mem_if_singleton he
      subst he
      refine Or.inr ⟨"Suspiciously long \"", by decide, ?_⟩
      unfold longMsg
      repeat apply prefix_strcat_trans
      exact List.prefix_refl _
    · obtain ⟨_, he⟩ := mem_if_singleton he
      subst he
      refine Or.inr ⟨"Arrow symbol → missing in \"", by decide, ?_⟩
      unfold arrowMsg
      repeat apply prefix_strcat_trans
      exact List.prefix_refl _
    · rw [List.mem_flatMap] at he
      obtain ⟨pl, _, he⟩ := he
      obtain ⟨_, he⟩ := mem_if_singleton he
      subst he
      refine Or.inr ⟨"SECURITY: ", by decide, ?_⟩
      unfold secPatternMsg
      repeat apply prefix_strcat_trans
      exact List.prefix_refl _
    · rw [List.mem_flatMap] at he
      obtain ⟨n, _, he⟩ := he
      split at he
      · simp at he
      · simp at he
        subst he
        refine Or.inr ⟨"SECURITY: ", by decide, ?_⟩
        unfold secTagMsg
        repeat apply prefix_strcat_trans
        decide
    · obtain ⟨_, he⟩ := mem_if_singleton he
      subst he
      refine Or.inr ⟨"SECURITY: ", by decide, ?_⟩
      unfold secEncodedMsg
      repeat apply prefix_strcat_trans
      decide
    · split at he
      · simp at he
      · simp at he
        subst he
        refine Or.inr ⟨"SECURITY: ", by decide, ?_⟩
        unfold secUnicodeMsg
        repeat apply prefix_strcat_trans
        decide
    · obtain ⟨_, he⟩ := mem_if_singleton he
      subst he
      refine Or.inr ⟨"SECURITY: ", by decide, ?_⟩
      unfold secEscapeMsg
      repeat apply prefix_strcat_trans
      decide

/-- Every error of checks 1 and 3-15 of `validate` is a missing-keys or
type-mismatch message (by prefix), an array-length message together with
the array data that emitted it, or a per-string error of a key holding
strings on both sides. -/
theorem validateMain_shape (tr src : JMap) (lang : String) :
    ∀ e ∈ validateMainErrs tr src lang,
      ("Missing keys: ".data <+: e.data) ∨
      ("Type mismatch on \"".data <+: e.data) ∨
      (∃ k xs ys, JMap.find src k = some (JValue.arr xs) ∧
        JMap.find (deleteExtras tr src) k = some (JValue.arr ys) ∧
        xs.length ≠ ys.length ∧ e = arrLenMsg k xs.length ys.length) ∨
      (∃ k s2 t2, JMap.find src k = some (JValue.str s2) ∧
        JMap.find (deleteExtras tr src) k = some (JValue.str t2) ∧
        e ∈ (perStringChecks lang k s2 t2).1) := by
  intro e he
  unfold validateMainErrs at he
  simp only [List.mem_append] at he
  rcases he with ((he | he) | he) | he
  · split at he
    · simp at he
    · simp at he
      subst he
      refine Or.inl ?_
      unfold missingKeysMsg
      repeat apply prefix_strcat_trans
      exact List.prefix_refl _
  · unfold typeErrsOf at he
    rw [List.mem_flatMap] at he
    obtain ⟨k, _, he⟩ := he
    split at he
    · obtain ⟨_, he⟩ := mem_if_singleton he
      subst he
      refine Or.inr (Or.inl ?_)
      unfold typeMsg
      repeat apply prefix_strcat_trans
      exact List.prefix_refl _
    · simp at he
  · unfold arrErrsOf at he
    rw [List.mem_flatMap] at he
    obtain ⟨k, _, he⟩ := he
    split at he
    · rename_i xs ys heq1 heq2
      obtain ⟨hne, he⟩ := mem_if_singleton he
      subst he
      exact Or.inr (Or.inr (Or.inl ⟨k, xs, ys, heq1, heq2, hne, rfl⟩))
    · simp at he
  · unfold perErrsOf at he
    rw [List.mem_flatMap] at he
    obtain ⟨k, _, he⟩ := he
    unfold perKeyPair at he
    split at he
    · rename_i s2 t2 heq1 heq2
      exact Or.inr (Or.inr (Or.inr ⟨k, s2, t2, heq1, heq2, he⟩))
    · simp at he

-- ── decimal rendering lemmas ────────────────────────────

/-- All characters produced by the decimal renderer are digits. -/
theorem natToStrGo_digits : ∀ fuel n acc,
    (∀ c ∈ acc, 48 ≤ c.toNat ∧ c.toNat ≤ 57) →
    ∀ c ∈ natToStrGo fuel n acc, 48 ≤ c.toNat ∧ c.toNat ≤ 57 := by
  intro fuel
  induction fuel with
  | zero => intro n acc hacc c hc; exact hacc c hc
  | succ fuel ih =>
    intro n acc hacc c hc
    have hdig : 48 ≤ (Char.ofNat (48 + n % 10)).toNat ∧ (Char.ofNat (48 + n % 10)).toNat ≤ 57 := by
      have h10 : n % 10 < 10 := Nat.mod_lt _ (by omega)
      set j := n % 10 with hj
      interval_cases j <;> decide
    rw [natToStrGo] at hc
    split at hc
    · rcases List.mem_cons.1 hc with h | h
      · rw [h]; exact hdig
      · exact hacc c h
    · refine ih (n / 10) _ ?_ c hc
      intro c2 hc2
      rcases List.mem_cons.1 hc2 with h | h
      · rw [h]; exact hdig
      · exact hacc c2 h

/-- The decimal renderer never returns the empty list when it has fuel or
a non-empty accumulator. -/
theorem natToStrGo_ne_nil : ∀ fuel n acc, acc ≠ [] ∨ 1 ≤ fuel →
    natToStrGo fuel n acc ≠ [] := by
  intro fuel
  induction fuel with
  | zero =>
    intro n acc h
    rcases h with h | h
    · exact h
    · omega
  | succ fuel ih =>
    intro n acc _
    rw [natToStrGo]
    split
    · simp
    · exact ih (n / 10) _ (Or.inl (by simp))

/-- The decimal rendering of a number starts with a digit. -/
theorem natToStr_head_digit (n : Nat) :
    ∃ c rest, (natToStr n).data = c :: rest ∧ 48 ≤ c.toNat ∧ c.toNat ≤ 57 := by
  unfold natToStr
  cases hd : natToStrGo (n + 1) n [] with
  | nil => exact absurd hd (natToStrGo_ne_nil (n + 1) n [] (Or.inr (by omega)))
  | cons c rest =>
    refine ⟨c, rest, rfl, ?_⟩
    have := natToStrGo_digits (n + 1) n [] (by simp) c
    rw [hd] at this
    exact this (List.mem_cons_self _ _)

/-- Digits are not straight quotes. -/
theorem natToStr_no_quote (n : Nat) : '"' ∉ (natToStr n).data := by
  intro h
  have := natToStrGo_digits (n + 1) n [] (by simp) _ h
  revert this
  decide

-- ── unique decomposition at a separator ─────────────────

/-- Splitting a list at a separator absent from both tails is unique. -/
theorem split_at_sep_last (a : Char) (u1 v1 u2 v2 : List Char)
    (he : u1 ++ a :: v1 = u2 ++ a :: v2) (h1 : a ∉ v1) (h2 : a ∉ v2) :
    u1 = u2 ∧ v1 = v2 := by
  have hs1 : (a :: v1) <:+ (u2 ++ a :: v2) := he ▸ List.suffix_append u1 (a :: v1)
  have hs2 : (a :: v2) <:+ (u2 ++ a :: v2) := List.suffix_append u2 (a :: v2)
  have hvv : v1 = v2 := by
    rcases List.suffix_or_suffix_of_suffix hs1 hs2 with hc | hc
    · obtain ⟨w, hw⟩ := hc
      cases w with
      | nil =>
        simp only [List.nil_append] at hw
        injection hw
      | cons c w2 =>
        exfalso
        rw [List.cons_append] at hw
        injection hw with hcc hrest
        apply h2
        rw [← hrest, List.mem_append]
        exact Or.inr (List.mem_cons_self _ _)
    · obtain ⟨w, hw⟩ := hc
      cases w with
      | nil =>
        simp only [List.nil_append] at hw
        exact (List.cons.injEq .. ▸ hw).2.symm
      | cons c w2 =>
        exfalso
        rw [List.cons_append] at hw
        injection hw with hcc hrest
        apply h1
        rw [← hrest, List.mem_append]
        exact Or.inr (List.mem_cons_self _ _)
  subst hvv
  exact ⟨(List.append_inj' he rfl).1, rfl⟩

-- ── claim C7: array length invariant ────────────────────

/-- Decomposition of an array-length message at its key-closing quote. -/
theorem arrLenMsg_data_split (k : String) (n m : Nat) :
    (arrLenMsg k n m).data =
      ("Array length mismatch on \"".data ++ k.data) ++ '"' ::
        (": expected ".data ++ ((natToStr n).data ++ (", got ".data ++ (natToStr m).data))) := by
  simp [arrLenMsg, String.data_append, List.append_assoc]

/-- No straight quote occurs after the key-closing quote of an
array-length message. -/
theorem arrLenMsg_tail_no_quote (n m : Nat) :
    '"' ∉ ": expected ".data ++ ((natToStr n).data ++ (", got ".data ++ (natToStr m).data)) := by
  intro h
  rw [List.mem_append] at h
  rcases h with h | h
  · revert h; decide
  · rw [List.mem_append] at h
    rcases h with h | h
    · exact natToStr_no_quote n h
    · rw [List.mem_append] at h
      rcases h with h | h
      · revert h; decide
      · exact natToStr_no_quote m h

/-- Two equal array-length messages name the same key. -/
theorem arrLenMsg_key_inj (k1 k2 : String) (n1 m1 n2 m2 : Nat)
    (he : arrLenMsg k1 n1 m1 = arrLenMsg k2 n2 m2) : k1 = k2 := by
  have hd : (arrLenMsg k1 n1 m1).data = (arrLenMsg k2 n2 m2).data := he ▸ rfl
  rw [arrLenMsg_data_split, arrLenMsg_data_split] at hd
  have := split_at_sep_last '"' _ _ _ _ hd
    (arrLenMsg_tail_no_quote n1 m1) (arrLenMsg_tail_no_quote n2 m2)
  have hku := this.1
  have := List.append_cancel_left hku
  exact String.ext this

/-- A prefix of `P ++ rest` is comparable with `P`. -/
theorem not_prefix_into (p P : List Char) (rest : List Char)
    (hc1 : ¬ p <+: P) (hc2 : ¬ P <+: p) (h : p <+: P ++ rest) : False := by
  rcases List.prefix_or_prefix_of_prefix h (List.prefix_append P rest) with hc | hc
  · exact hc1 hc
  · exact hc2 hc

/-- C7: for a key holding arrays on both sides, `validate` emits the
array-length error naming the two lengths exactly when the lengths
differ; and the concrete scenario of the specification. -/
theorem c7_array_length :
    (∀ (translated source : JMap) (targetLang key : String) (xs ys : List String),
       JMap.find source key = some (JValue.arr xs) →
       JMap.find translated key = some (JValue.arr ys) →
       (arrLenMsg key xs.length ys.length ∈ (validate translated source targetLang).errors ↔
         xs.length ≠ ys.length)) ∧
    ((validate [("tags", JValue.arr ["x", "y"])] [("tags", JValue.arr ["a", "b", "c"])]
        "pl").errors = [arrLenMsg "tags" 3 2] ∧
     findFailedKeys [arrLenMsg "tags" 3 2] [("tags", JValue.arr ["a", "b", "c"])]
       [("tags", JValue.arr ["x", "y"])] "pl" = ["tags"]) := by
  constructor
  · intro tr src lang key xs ys hsrc htr
    have hkmem : key ∈ JMap.keys src := lookup_mem src key _ hsrc
    have htr2 : JMap.find (deleteExtras tr src) key = some (JValue.arr ys) := by
      rw [find_deleteExtras tr src key hkmem]
      exact htr
    constructor
    · intro hmem
      unfold validate at hmem
      dsimp only at hmem
      rw [List.mem_append] at hmem
      rcases hmem with hmem | hmem
      · rcases validateMain_shape tr src lang _ hmem with hsh | hsh | hsh | hsh
        · exfalso
          rw [arrLenMsg_data_split, List.append_assoc] at hsh
          exact not_prefix_into _ _ _ (by decide) (by decide) hsh
        · exfalso
          rw [arrLenMsg_data_split, List.append_assoc] at hsh
          exact not_prefix_into _ _ _ (by decide) (by decide) hsh
        · obtain ⟨k2, xs2, ys2, hs2, ht2, hne2, he2⟩ := hsh
          have hkk : key = k2 := arrLenMsg_key_inj _ _ _ _ _ _ he2
          subst hkk
          rw [hsrc] at hs2
          rw [htr2] at ht2
          injection hs2 with hs2
          injection ht2 with ht2
          injection hs2 with hs2
          injection ht2 with ht2
          rw [← hs2, ← ht2] at hne2
          exact hne2
        · obtain ⟨k2, s2, t2, _, _, hper⟩ := hsh
          rcases perStringChecks_shape lang k2 s2 t2 _ hper with hsh | hsh
          · obtain ⟨name, w, _, _, _, _, he2⟩ := hsh
            exfalso
            have hd : (arrLenMsg key xs.length ys.length).data =
                (nameMsg k2 name (stemOf w)).data := he2 ▸ rfl
            rw [arrLenMsg_data_split, List.append_assoc] at hd
            unfold nameMsg at hd
            rw [show ("Protected name missing in \"" ++ k2 ++ "\": \"" ++ name ++
                "\" (stem \"" ++ stemOf w ++ "\" not found)").data =
              "Protected name missing in \"".data ++ (k2 ++ "\": \"" ++ name ++
                "\" (stem \"" ++ stemOf w ++ "\" not found)").data from by
              simp [String.data_append, List.append_assoc]] at hd
            exact append_ne_append _ _ _ _ (by decide) (by decide) hd
          · obtain ⟨p, hp, hsh⟩ := hsh
            exfalso
            rw [arrLenMsg_data_split, List.append_assoc] at hsh
            fin_cases hp <;>
              exact not_prefix_into _ _ _ (by decide) (by decide) hsh
      · unfold aggErrsOf at hmem
        split at hmem
        · exfalso
          simp at hmem
          obtain ⟨c0, r0, hu, _, hdig2⟩ := natToStr_head_digit
            (untransCount (deleteExtras tr src) src lang)
          have hd : (arrLenMsg key xs.length ys.length).data =
              (untranslatedMsg (untransCount (deleteExtras tr src) src lang)
                (eligibleKeys src).length).data := hmem ▸ rfl
          rw [arrLenMsg_data_split] at hd
          rw [show (untranslatedMsg (untransCount (deleteExtras tr src) src lang)
              (eligibleKeys src).length).data =
            (natToStr (untransCount (deleteExtras tr src) src lang)).data ++
              ("/" ++ (natToStr (eligibleKeys src).length ++
                " keys appear untranslated (identical to English)")).data from by
            simp [untranslatedMsg, String.data_append, List.append_assoc]] at hd
          rw [hu] at hd
          rw [show ("Array length mismatch on \"".data ++ key.data) ++ '"' ::
              (": expected ".data ++ ((natToStr xs.length).data ++
                (", got ".data ++ (natToStr ys.length).data))) =
            'A' :: ("rray length mismatch on \"".data ++ key.data ++ '"' ::
              (": expected ".data ++ ((natToStr xs.length).data ++
                (", got ".data ++ (natToStr ys.length).data)))) from by
            simp [List.append_assoc]] at hd
          injection hd with hd1 _
          rw [← hd1] at hdig2
          revert hdig2
          decide
        · simp at hmem
    · intro hne
      have hmem : arrLenMsg key xs.length ys.length ∈ arrErrsOf (deleteExtras tr src) src := by
        unfold arrErrsOf
        rw [List.mem_flatMap]
        refine ⟨key, hkmem, ?_⟩
        rw [hsrc, htr2]
        simp [hne]
      unfold validate validateMainErrs
      simp only [List.mem_append]
      tauto
  · exact ⟨by decide, by decide⟩

/-- C7 witness: the scenario instantiates the general equivalence. -/
theorem c7_array_length_witness :
    (JMap.find [("tags", JValue.arr ["a", "b", "c"])] "tags" =
       some (JValue.arr ["a", "b", "c"]) ∧
     JMap.find [("tags", JValue.arr ["x", "y"])] "tags" = some (JValue.arr ["x", "y"])) ∧
    (arrLenMsg "tags" 3 2 ∈
       (validate [("tags", JValue.arr ["x", "y"])] [("tags", JValue.arr ["a", "b", "c"])]
         "pl").errors ↔ (3 : Nat) ≠ 2) := by
  refine ⟨⟨by decide, by decide⟩, ?_⟩
  have := c7_array_length.1 [("tags", JValue.arr ["x", "y"])]
    [("tags", JValue.arr ["a", "b", "c"])] "pl" "tags" ["a", "b", "c"] ["x", "y"]
    (by decide) (by decide)
  simpa using this

-- ── claim C4: protected-name stems ──────────────────────

/-- Decomposition of a protected-name message at its final quote. -/
theorem nameMsg_data_split (k n s : String) :
    (nameMsg k n s).data =
      ("Protected name missing in \"".data ++ (k.data ++ ('"' :: ':' :: ' ' :: ('"' ::
        (n.data ++ ('"' :: (" (stem ".data ++ ('"' :: s.data)))))))) ++
        '"' :: " not found)".data := by
  simp [nameMsg, String.data_append, List.append_assoc]

/-- Two equal protected-name messages with quote-free names and stems
name the same key and the same protected name. -/
theorem nameMsg_inj (k1 n1 s1 k2 n2 s2 : String)
    (hn1 : '"' ∉ n1.data) (hn2 : '"' ∉ n2.data)
    (hs1 : '"' ∉ s1.data) (hs2 : '"' ∉ s2.data)
    (he : nameMsg k1 n1 s1 = nameMsg k2 n2 s2) : k1 = k2 ∧ n1 = n2 := by
  have hd : (nameMsg k1 n1 s1).data = (nameMsg k2 n2 s2).data := he ▸ rfl
  rw [nameMsg_data_split, nameMsg_data_split] at hd
  have h1 := split_at_sep_last '"' _ _ _ _ hd (by decide) (by decide)
  have hd2 := h1.1
  have hre : ∀ k n s : String,
      "Protected name missing in \"".data ++ (k.data ++ ('"' :: ':' :: ' ' :: ('"' ::
        (n.data ++ ('"' :: (" (stem ".data ++ ('"' :: s.data))))))) =
      ("Protected name missing in \"".data ++ (k.data ++ ('"' :: ':' :: ' ' :: ('"' ::
        (n.data ++ ('"' :: " (stem ".data)))))) ++ '"' :: s.data := by
    intro k n s
    simp [List.append_assoc]
  rw [hre, hre] at hd2
  have h2 := split_at_sep_last '"' _ _ _ _ hd2 hs1 hs2
  have hd3 := h2.1
  have hre2 : ∀ k n : String,
      "Protected name missing in \"".data ++ (k.data ++ ('"' :: ':' :: ' ' :: ('"' ::
        (n.data ++ ('"' :: " (stem ".data))))) =
      ("Protected name missing in \"".data ++ (k.data ++ ('"' :: ':' :: ' ' :: ('"' ::
        n.data)))) ++ '"' :: " (stem ".data := by
    intro k n
    simp [List.append_assoc]
  rw [hre2, hre2] at hd3
  have h3 := split_at_sep_last '"' _ _ _ _ hd3 (by decide) (by decide)
  have hd4 := h3.1
  have hre3 : ∀ k n : String,
      "Protected name missing in \"".data ++ (k.data ++ ('"' :: ':' :: ' ' :: ('"' ::
        n.data))) =
      ("Protected name missing in \"".data ++ (k.data ++ ('"' :: ':' :: ' ' :: []))) ++
        '"' :: n.data := by
    intro k n
    simp [List.append_assoc]
  rw [hre3, hre3] at hd4
  have h4 := split_at_sep_last '"' _ _ _ _ hd4 hn1 hn2
  refine ⟨?_, String.ext h4.2⟩
  have hd5 := List.append_cancel_left h4.1
  exact String.ext (List.append_cancel_right hd5)

/-- C4 counterexample: source value `Byung-Chul Han`, candidate value
empty: the stems are absent from the candidate, yet `validate` emits no
protected-name error for the key (only `Empty translation`), refuting the
claimed equivalence as stated. -/
theorem c4_protected_name_counterexample :
    ¬ ((∃ w ∈ significantWords "Byung-Chul Han",
          nameMsg "k" "Byung-Chul Han" (stemOf w) ∈
            (validate [("k", JValue.str "")] [("k", JValue.str "Byung-Chul Han")]
              "pl").errors) ↔
       (∃ w ∈ significantWords "Byung-Chul Han",
          strIncludes "" (stemOf w) = false)) := by
  decide

/-- Two incomparable lists cannot both be prefixes of the same list. -/
theorem prefix_clash (p1 p2 m : List Char) (h1 : p1 <+: m) (h2 : p2 <+: m)
    (hne1 : ¬ p1 <+: p2) (hne2 : ¬ p2 <+: p1) : False := by
  rcases List.prefix_or_prefix_of_prefix h1 h2 with hc | hc
  · exact hne1 hc
  · exact hne2 hc

/-- C4 (amended): for a protected name occurring in the source string of
a key whose candidate value is a string, and provided the candidate is
not a blank translation of a non-blank source (which check 5 reports as
`Empty translation` and skips the rest of the key's checks), `validate`
emits a protected-name error for the key naming a stem of the name
exactly when some significant word of the name has its stem absent from
the candidate. -/
theorem c4_protected_name_stem_amended :
    ∀ (translated source : JMap) (targetLang key src tgt name : String),
      JMap.find source key = some (JValue.str src) →
      JMap.find translated key = some (JValue.str tgt) →
      name ∈ PROTECTED_NAMES →
      strIncludes src name = true →
      ¬ (trimEmpty tgt = true ∧ trimEmpty src = false) →
      ((∃ w ∈ significantWords name,
          nameMsg key name (stemOf w) ∈ (validate translated source targetLang).errors) ↔
       (∃ w ∈ significantWords name, strIncludes tgt (stemOf w) = false)) := by
  intro tr src lang key s t name hsrc htr hname hinc hskip
  have hkmem : key ∈ JMap.keys src := lookup_mem src key _ hsrc
  have htr2 : JMap.find (deleteExtras tr src) key = some (JValue.str t) := by
    rw [find_deleteExtras tr src key hkmem]
    exact htr
  have hcond : (trimEmpty t && !trimEmpty s) = false := by
    cases h1 : trimEmpty t with
    | false => rfl
    | true =>
      cases h2 : trimEmpty s with
      | true => rfl
      | false => exact absurd ⟨h1, h2⟩ hskip
  constructor
  · rintro ⟨w, hw, hmem⟩
    unfold validate at hmem
    dsimp only at hmem
    rw [List.mem_append] at hmem
    rcases hmem with hmem | hmem
    · have hpn : "Protected name missing in \"".data <+:
          (nameMsg key name (stemOf w)).data := by
        unfold nameMsg
        repeat apply prefix_strcat_trans
        exact List.prefix_refl _
      rcases validateMain_shape tr src lang _ hmem with hsh | hsh | hsh | hsh
      · exact absurd (prefix_clash _ _ _ hsh hpn (by decide) (by decide)) id
      · exact absurd (prefix_clash _ _ _ hsh hpn (by decide) (by decide)) id
      · obtain ⟨k2, xs2, ys2, _, _, _, he2⟩ := hsh
        exfalso
        have hpa : "Array length mismatch on \"".data <+:
            (arrLenMsg k2 xs2.length ys2.length).data := by
          unfold arrLenMsg
          repeat apply prefix_strcat_trans
          exact List.prefix_refl _
        rw [← he2] at hpa
        exact prefix_clash _ _ _ hpa hpn (by decide) (by decide)
      · obtain ⟨k2, s2, t2, hs2, ht2, hper⟩ := hsh
        rcases perStringChecks_shape lang k2 s2 t2 _ hper with hsh | hsh
        · obtain ⟨name2, w2, hname2, hinc2, hw2, hstem2, he2⟩ := hsh
          have hqn : ∀ nm ∈ PROTECTED_NAMES, '"' ∉ nm.data := by decide
          have hq1 : '"' ∉ name.data := hqn name hname
          have hq2 : '"' ∉ name2.data := hqn name2 hname2
          have hq3 : '"' ∉ (stemOf w).data := by
            have : ∀ nm ∈ PROTECTED_NAMES, ∀ w3 ∈ significantWords nm,
                '"' ∉ (stemOf w3).data := by decide
            exact this name hname w hw
          have hq4 : '"' ∉ (stemOf w2).data := by
            have : ∀ nm ∈ PROTECTED_NAMES, ∀ w3 ∈ significantWords nm,
                '"' ∉ (stemOf w3).data := by decide
            exact this name2 hname2 w2 hw2
          obtain ⟨hkk, hnn⟩ := nameMsg_inj key name (stemOf w) k2 name2 (stemOf w2)
            hq1 hq2 hq3 hq4 he2
          subst hkk
          subst hnn
          rw [hsrc] at hs2
          rw [htr2] at ht2
          injection hs2 with hs2
          injection ht2 with ht2
          injection hs2 with hs2
          injection ht2 with ht2
          subst hs2
          subst ht2
          exact ⟨w2, hw2, hstem2⟩
        · obtain ⟨p, hp, hsh⟩ := hsh
          exfalso
          fin_cases hp <;>
            exact prefix_clash _ _ _ hsh hpn (by decide) (by decide)
    · exfalso
      unfold aggErrsOf at hmem
      split at hmem
      · simp at hmem
        obtain ⟨c0, r0, hu, _, hdig2⟩ := natToStr_head_digit
          (untransCount (deleteExtras tr src) src lang)
        have hd : (nameMsg key name (stemOf w)).data =
            (untranslatedMsg (untransCount (deleteExtras tr src) src lang)
              (eligibleKeys src).length).data := hmem ▸ rfl
        rw [show (untranslatedMsg (untransCount (deleteExtras tr src) src lang)
            (eligibleKeys src).length).data =
          (natToStr (untransCount (deleteExtras tr src) src lang)).data ++
            ("/" ++ (natToStr (eligibleKeys src).length ++
              " keys appear untranslated (identical to English)")).data from by
          simp [untranslatedMsg, String.data_append, List.append_assoc]] at hd
        rw [hu] at hd
        rw [show (nameMsg key name (stemOf w)).data =
            'P' :: ("rotected name missing in \"" ++ key ++ "\": \"" ++ name ++
              "\" (stem \"" ++ stemOf w ++ "\" not found)").data from by
          simp [nameMsg, String.data_append, List.append_assoc]] at hd
        injection hd with hd1 _
        rw [← hd1] at hdig2
        revert hdig2
        decide
      · simp at hmem
  · rintro ⟨w, hw, hstem⟩
    refine ⟨w, hw, ?_⟩
    apply perString_mem_validate tr src lang key s t hsrc htr
    unfold perStringChecks
    rw [hcond]
    simp only [Bool.false_eq_true, if_false]
    have hone : nameMsg key name (stemOf w) ∈ PROTECTED_NAMES.flatMap (fun name2 =>
        if strIncludes s name2 then
          (significantWords name2).flatMap (fun w2 =>
            if strIncludes t (stemOf w2) then [] else [nameMsg key name2 (stemOf w2)])
        else []) := by
      rw [List.mem_flatMap]
      refine ⟨name, hname, ?_⟩
      rw [if_pos (by simpa using hinc)]
      rw [List.mem_flatMap]
      refine ⟨w, hw, ?_⟩
      rw [if_neg (by simp [hstem])]
      exact List.mem_cons_self _ _
    simp only [List.mem_append]
    tauto

/-- C4 witness: the name `Byung-Chul Han` inflected in the candidate
(`Byung-Chula Hana`) passes the stem rule, instantiating the amended
equivalence. -/
theorem c4_protected_name_stem_amended_witness :
    (JMap.find [("k", JValue.str "The book of Byung-Chul Han")] "k" =
       some (JValue.str "The book of Byung-Chul Han") ∧
     JMap.find [("k", JValue.str "Ksiazka Byung-Chula Hana")] "k" =
       some (JValue.str "Ksiazka Byung-Chula Hana") ∧
     "Byung-Chul Han" ∈ PROTECTED_NAMES ∧
     strIncludes "The book of Byung-Chul Han" "Byung-Chul Han" = true ∧
     ¬ (trimEmpty "Ksiazka Byung-Chula Hana" = true ∧
        trimEmpty "The book of Byung-Chul Han" = false)) ∧
    ((∃ w ∈ significantWords "Byung-Chul Han",
        nameMsg "k" "Byung-Chul Han" (stemOf w) ∈
          (validate [("k", JValue.str "Ksiazka Byung-Chula Hana")]
            [("k", JValue.str "The book of Byung-Chul Han")] "pl").errors) ↔
     (∃ w ∈ significantWords "Byung-Chul Han",
        strIncludes "Ksiazka Byung-Chula Hana" (stemOf w) = false)) := by
  refine ⟨⟨by decide, by decide, by decide, by decide, by decide⟩, ?_⟩
  exact c4_protected_name_stem_amended
    [("k", JValue.str "Ksiazka Byung-Chula Hana")]
    [("k", JValue.str "The book of Byung-Chul Han")] "pl" "k"
    "The book of Byung-Chul Han" "Ksiazka Byung-Chula Hana" "Byung-Chul Han"
    (by decide) (by decide) (by decide) (by decide) (by decide)

-- ── claim C5: aggregate untranslated detection ──────────

/-- The errors of `validate` are the main checks followed by the
aggregate check. -/
theorem validate_errors (tr src : JMap) (lang : String) :
    (validate tr src lang).errors =
      validateMainErrs tr src lang ++ aggErrsOf (deleteExtras tr src) src lang := rfl

/-- The untranslated-count contribution of the per-string checks: zero on
the empty-translation skip, otherwise the check-9 occurrence. -/
theorem perStringChecks_snd (lang k s t : String) :
    (perStringChecks lang k s t).2 =
      if trimEmpty t && !trimEmpty s then 0 else untransOne lang s t := by
  unfold perStringChecks
  split <;> rfl

/-- The claim's characterization of an untranslated key, stated in the
words of the specification: source and candidate values are both strings,
identical, and the source string is longer than 30. -/
def specUntranslatedKey (translated2 source : JMap) (k : String) : Bool :=
  match JMap.find source k, JMap.find translated2 k with
  | some (JValue.str s), some (JValue.str t) => t = s && s.length > 30
  | _, _ => false

/-- Away from English, a key contributes 1 to the untranslated count
exactly when the claim's characterization holds of it. -/
theorem perKeyPair_snd_char (tr2 src : JMap) (lang k : String) (hlang : lang ≠ "en") :
    (perKeyPair tr2 src lang k).2 = if specUntranslatedKey tr2 src k then 1 else 0 := by
  unfold perKeyPair specUntranslatedKey
  cases hs : JMap.find src k with
  | none => rfl
  | some sv =>
    cases sv with
    | arr xs =>
      cases ht : JMap.find tr2 k with
      | none => rfl
      | some tv => cases tv <;> rfl
    | str s =>
      cases ht : JMap.find tr2 k with
      | none => rfl
      | some tv =>
        cases tv with
        | arr ys => rfl
        | str t =>
          rw [perStringChecks_snd]
          by_cases hskip : (trimEmpty t && !trimEmpty s) = true
          · rw [if_pos hskip]
            obtain ⟨ht1, hs2⟩ : trimEmpty t = true ∧ trimEmpty s = false := by
              simpa using hskip
            have hne : ¬ (t = s) := by
              intro h
              rw [h, hs2] at ht1
              exact Bool.noConfusion ht1
            simp [hne]
          · rw [if_neg hskip]
            unfold untransOne
            by_cases hts : t = s
            · by_cases hlen : s.length > 30
              · rw [if_pos ⟨hlang, hts, hlen⟩]
                simp [hts, hlen]
              · rw [if_neg (by tauto)]
                simp [hts, hlen]
            · rw [if_neg (by tauto)]
              simp [hts]

/-- A pointwise 0/1 summand sums to the length of the filter. -/
theorem sum_map_eq_filter_length (f : String → Nat) (p : String → Bool) :
    ∀ l : List String, (∀ k ∈ l, f k = if p k then 1 else 0) →
      (l.map f).sum = (l.filter p).length := by
  intro l
  induction l with
  | nil => intro _; rfl
  | cons a l2 ih =>
    intro h
    have ha := h a (List.mem_cons_self _ _)
    have ihl := ih (fun k hk => h k (List.mem_cons_of_mem _ hk))
    rw [List.map_cons, List.sum_cons, List.filter_cons, ha, ihl]
    by_cases hp : p a = true
    · rw [if_pos hp, if_pos hp, List.length_cons]
      omega
    · rw [if_neg hp, if_neg hp]
      omega

/-- A summand bounded by a 0/1 indicator sums to at most the length of
the filter. -/
theorem sum_map_le_filter_length (f : String → Nat) (p : String → Bool) :
    ∀ l : List String, (∀ k ∈ l, f k ≤ if p k then 1 else 0) →
      (l.map f).sum ≤ (l.filter p).length := by
  intro l
  induction l with
  | nil => intro _; simp
  | cons a l2 ih =>
    intro h
    have ha := h a (List.mem_cons_self _ _)
    have ihl := ih (fun k hk => h k (List.mem_cons_of_mem _ hk))
    rw [List.map_cons, List.sum_cons, List.filter_cons]
    by_cases hp : p a = true
    · rw [if_pos hp] at ha
      rw [if_pos hp, List.length_cons]
      omega
    · rw [if_neg hp] at ha
      rw [if_neg hp]
      omega

/-- The untranslated count never exceeds the number of eligible keys. -/
theorem untransCount_le_eligible (tr2 src : JMap) (lang : String) :
    untransCount tr2 src lang ≤ (eligibleKeys src).length := by
  unfold untransCount eligibleKeys
  apply sum_map_le_filter_length
  intro k _
  unfold perKeyPair
  cases hs : JMap.find src k with
  | none => exact Nat.le_refl 0
  | some sv =>
    cases sv with
    | arr xs => exact Nat.le_refl 0
    | str s =>
      cases ht : JMap.find tr2 k with
      | none => exact Nat.zero_le _
      | some tv =>
        cases tv with
        | arr ys => exact Nat.zero_le _
        | str t =>
          rw [perStringChecks_snd]
          split
          · exact Nat.zero_le _
          · unfold untransOne
            split
            · rename_i hcond
              have h30 : 30 < s.length := hcond.2.2
              simp [h30]
            · exact Nat.zero_le _

/-- Away from English, the untranslated count is exactly the number of
source keys the claim's characterization selects. -/
theorem untransCount_char (tr src : JMap) (lang : String) (hlang : lang ≠ "en") :
    untransCount (deleteExtras tr src) src lang =
      ((JMap.keys src).filter (specUntranslatedKey (deleteExtras tr src) src)).length := by
  unfold untransCount
  apply sum_map_eq_filter_length
  intro k _
  exact perKeyPair_snd_char (deleteExtras tr src) src lang k hlang

/-- The aggregate message starts with a decimal digit. -/
theorem untranslatedMsg_head (c e : Nat) :
    ∃ d rest, (untranslatedMsg c e).data = d :: rest ∧ 48 ≤ d.toNat ∧ d.toNat ≤ 57 := by
  obtain ⟨d, r, hd, h1, h2⟩ := natToStr_head_digit c
  refine ⟨d, r ++ ("/" ++ natToStr e ++
    " keys appear untranslated (identical to English)").data, ?_, h1, h2⟩
  simp [untranslatedMsg, String.data_append, hd, List.append_assoc]

/-- A string whose head is not a digit is no prefix of a list headed by a
digit. -/
theorem head_clash_digit (P : String) (m : List Char) (hp : P.data <+: m)
    (d : Char) (rest : List Char) (hm : m = d :: rest)
    (hd1 : 48 ≤ d.toNat) (hd2 : d.toNat ≤ 57)
    (hP : (match P.data.head? with
           | some c => decide (c.toNat < 48) || decide (57 < c.toNat)
           | none => false) = true) : False := by
  cases hPd : P.data with
  | nil =>
    rw [hPd] at hP
    simp at hP
  | cons c0 tl =>
    rw [hPd] at hP hp
    simp only [List.head?_cons] at hP
    rw [hm] at hp
    obtain ⟨w, hw⟩ := hp
    rw [List.cons_append] at hw
    injection hw with h1 _
    rw [h1] at hP
    simp only [Bool.or_eq_true, decide_eq_true_eq] at hP
    omega

/-- The aggregate message is never produced by checks 1 and 3-15: each of
their messages starts with a letter, the aggregate message with a digit. -/
theorem untranslatedMsg_not_main (tr src : JMap) (lang : String) (c e : Nat) :
    untranslatedMsg c e ∉ validateMainErrs tr src lang := by
  intro hmem
  obtain ⟨d, rest, hdd, hd1, hd2⟩ := untranslatedMsg_head c e
  rcases validateMain_shape tr src lang _ hmem with hsh | hsh | hsh | hsh
  · exact head_clash_digit _ _ hsh d rest hdd hd1 hd2 (by decide)
  · exact head_clash_digit _ _ hsh d rest hdd hd1 hd2 (by decide)
  · obtain ⟨k, xs, ys, _, _, _, he⟩ := hsh
    have hpa : "Array length mismatch on \"".data <+:
        (arrLenMsg k xs.length ys.length).data := by
      unfold arrLenMsg
      repeat apply prefix_strcat_trans
      exact List.prefix_refl _
    rw [← he] at hpa
    exact head_clash_digit _ _ hpa d rest hdd hd1 hd2 (by decide)
  · obtain ⟨k, s2, t2, _, _, hper⟩ := hsh
    rcases perStringChecks_shape lang k s2 t2 _ hper with hsh2 | hsh2
    · obtain ⟨name, w, _, _, _, _, he⟩ := hsh2
      have hpn : "Protected name missing in \"".data <+:
          (nameMsg k name (stemOf w)).data := by
        unfold nameMsg
        repeat apply prefix_strcat_trans
        exact List.prefix_refl _
      rw [← he] at hpn
      exact head_clash_digit _ _ hpn d rest hdd hd1 hd2 (by decide)
    · obtain ⟨p, hp, hsh3⟩ := hsh2
      fin_cases hp <;>
        exact head_clash_digit _ _ hsh3 d rest hdd hd1 hd2 (by decide)

/-- C5: away from English, the untranslated count is exactly the number
of keys whose source and candidate values are identical strings longer
than 30; the aggregate untranslated error for that count appears exactly
once when the count exceeds 30% of the eligible string keys and otherwise
no aggregate message appears at all; on target language "en" no aggregate
message is ever emitted. -/
theorem c5_untranslated_aggregate (tr src : JMap) (lang : String) :
    (lang ≠ "en" →
      untransCount (deleteExtras tr src) src lang =
        ((JMap.keys src).filter (specUntranslatedKey (deleteExtras tr src) src)).length ∧
      ((validate tr src lang).errors.count
          (untranslatedMsg (untransCount (deleteExtras tr src) src lang)
            (eligibleKeys src).length) =
        if 10 * untransCount (deleteExtras tr src) src lang >
            3 * (eligibleKeys src).length then 1 else 0) ∧
      (∀ n m, untranslatedMsg n m ∈ (validate tr src lang).errors →
        10 * untransCount (deleteExtras tr src) src lang >
          3 * (eligibleKeys src).length)) ∧
    (∀ n m, untranslatedMsg n m ∉ (validate tr src "en").errors) := by
  constructor
  · intro hlang
    refine ⟨untransCount_char tr src lang hlang, ?_, ?_⟩
    · rw [validate_errors, List.count_append,
        List.count_eq_zero.2 (untranslatedMsg_not_main tr src lang _ _), Nat.zero_add]
      unfold aggErrsOf
      split
      · rename_i hcond
        rw [if_pos hcond.2.2]
        simp
      · rename_i hcond
        have hthr : ¬ (10 * untransCount (deleteExtras tr src) src lang >
            3 * (eligibleKeys src).length) := by
          intro hgt
          apply hcond
          refine ⟨hlang, ?_, hgt⟩
          have hle := untransCount_le_eligible (deleteExtras tr src) src lang
          omega
        rw [if_neg hthr]
        simp
    · intro n m hm
      rw [validate_errors, List.mem_append] at hm
      rcases hm with hm | hm
      · exact absurd hm (untranslatedMsg_not_main tr src lang n m)
      · unfold aggErrsOf at hm
        split at hm
        · rename_i hcond
          exact hcond.2.2
        · simp at hm
  · intro n m hm
    rw [validate_errors, List.mem_append] at hm
    rcases hm with hm | hm
    · exact absurd hm (untranslatedMsg_not_main tr src "en" n m)
    · unfold aggErrsOf at hm
      split at hm
      · rename_i hcond
        exact hcond.1 rfl
      · simp at hm

/-- C5 witness: two identical 31/32-character strings on language "pl"
give count 2 of 2 eligible keys and exactly one aggregate error; the
aggregate message is absent when validating the source against itself on
"en". -/
theorem c5_untranslated_aggregate_witness :
    (("pl" : String) ≠ "en" ∧
      untransCount
        (deleteExtras
          [("k1", JValue.str "abcdefghijklmnopqrstuvwxyzabcde"),
           ("k2", JValue.str "abcdefghijklmnopqrstuvwxyzabcdef")]
          [("k1", JValue.str "abcdefghijklmnopqrstuvwxyzabcde"),
           ("k2", JValue.str "abcdefghijklmnopqrstuvwxyzabcdef")])
        [("k1", JValue.str "abcdefghijklmnopqrstuvwxyzabcde"),
         ("k2", JValue.str "abcdefghijklmnopqrstuvwxyzabcdef")] "pl" = 2 ∧
      (eligibleKeys
        [("k1", JValue.str "abcdefghijklmnopqrstuvwxyzabcde"),
         ("k2", JValue.str "abcdefghijklmnopqrstuvwxyzabcdef")]).length = 2 ∧
      (validate
        [("k1", JValue.str "abcdefghijklmnopqrstuvwxyzabcde"),
         ("k2", JValue.str "abcdefghijklmnopqrstuvwxyzabcdef")]
        [("k1", JValue.str "abcdefghijklmnopqrstuvwxyzabcde"),
         ("k2", JValue.str "abcdefghijklmnopqrstuvwxyzabcdef")]
        "pl").errors.count (untranslatedMsg 2 2) = 1) ∧
    untranslatedMsg 2 2 ∉
      (validate
        [("k1", JValue.str "abcdefghijklmnopqrstuvwxyzabcde"),
         ("k2", JValue.str "abcdefghijklmnopqrstuvwxyzabcdef")]
        [("k1", JValue.str "abcdefghijklmnopqrstuvwxyzabcde"),
         ("k2", JValue.str "abcdefghijklmnopqrstuvwxyzabcdef")] "en").errors := by
  constructor
  · refine ⟨by decide, by decide, by decide, ?_⟩
    have h := ((c5_untranslated_aggregate
      [("k1", JValue.str "abcdefghijklmnopqrstuvwxyzabcde"),
       ("k2", JValue.str "abcdefghijklmnopqrstuvwxyzabcdef")]
      [("k1", JValue.str "abcdefghijklmnopqrstuvwxyzabcde"),
       ("k2", JValue.str "abcdefghijklmnopqrstuvwxyzabcdef")] "pl").1 (by decide)).2.1
    rw [show untransCount
        (deleteExtras
          [("k1", JValue.str "abcdefghijklmnopqrstuvwxyzabcde"),
           ("k2", JValue.str "abcdefghijklmnopqrstuvwxyzabcdef")]
          [("k1", JValue.str "abcdefghijklmnopqrstuvwxyzabcde"),
           ("k2", JValue.str "abcdefghijklmnopqrstuvwxyzabcdef")])
        [("k1", JValue.str "abcdefghijklmnopqrstuvwxyzabcde"),
         ("k2", JValue.str "abcdefghijklmnopqrstuvwxyzabcdef")] "pl" = 2 from by decide,
      show (eligibleKeys
        [("k1", JValue.str "abcdefghijklmnopqrstuvwxyzabcde"),
         ("k2", JValue.str "abcdefghijklmnopqrstuvwxyzabcdef")]).length = 2 from by decide]
      at h
    rw [if_pos (by decide)] at h
    exact h
  · exact (c5_untranslated_aggregate
      [("k1", JValue.str "abcdefghijklmnopqrstuvwxyzabcde"),
       ("k2", JValue.str "abcdefghijklmnopqrstuvwxyzabcdef")]
      [("k1", JValue.str "abcdefghijklmnopqrstuvwxyzabcde"),
       ("k2", JValue.str "abcdefghijklmnopqrstuvwxyzabcdef")] "x").2 2 2

-- ── claim C6: extra-key stripping and frame ─────────────

/-- The warnings of `validate` are exactly the extra-key warning when
extra keys exist and nothing otherwise. -/
theorem validate_warnings (tr src : JMap) (lang : String) :
    (validate tr src lang).warnings =
      if (extraList tr src).isEmpty then []
      else [extraKeysMsg (extraList tr src)] := rfl

/-- The extra-key message never appears among the errors of `validate`:
its fixed head is incompatible with the head of every error message. -/
theorem extraKeysMsg_not_error (tr src : JMap) (lang : String) (l : List String) :
    extraKeysMsg l ∉ (validate tr src lang).errors := by
  intro hmem
  have hpx : "Extra keys (removed): ".data <+: (extraKeysMsg l).data := by
    unfold extraKeysMsg
    repeat apply prefix_strcat_trans
    exact List.prefix_refl _
  rw [validate_errors, List.mem_append] at hmem
  rcases hmem with hmem | hmem
  · rcases validateMain_shape tr src lang _ hmem with hsh | hsh | hsh | hsh
    · exact prefix_clash _ _ _ hsh hpx (by decide) (by decide)
    · exact prefix_clash _ _ _ hsh hpx (by decide) (by decide)
    · obtain ⟨k, xs, ys, _, _, _, he⟩ := hsh
      have hpa : "Array length mismatch on \"".data <+:
          (arrLenMsg k xs.length ys.length).data := by
        unfold arrLenMsg
        repeat apply prefix_strcat_trans
        exact List.prefix_refl _
      rw [← he] at hpa
      exact prefix_clash _ _ _ hpa hpx (by decide) (by decide)
    · obtain ⟨k, s2, t2, _, _, hper⟩ := hsh
      rcases perStringChecks_shape lang k s2 t2 _ hper with hsh2 | hsh2
      · obtain ⟨name, w, _, _, _, _, he⟩ := hsh2
        have hpn : "Protected name missing in \"".data <+:
            (nameMsg k name (stemOf w)).data := by
          unfold nameMsg
          repeat apply prefix_strcat_trans
          exact List.prefix_refl _
        rw [← he] at hpn
        exact prefix_clash _ _ _ hpn hpx (by decide) (by decide)
      · obtain ⟨p, hp, hsh3⟩ := hsh2
        fin_cases hp <;>
          exact prefix_clash _ _ _ hsh3 hpx (by decide) (by decide)
  · unfold aggErrsOf at hmem
    split at hmem
    · simp only [List.mem_singleton] at hmem
      obtain ⟨d, rest, hdd, hd1, hd2⟩ :=
        untranslatedMsg_head (untransCount (deleteExtras tr src) src lang)
          (eligibleKeys src).length
      rw [hmem] at hpx
      exact head_clash_digit _ _ hpx d rest hdd hd1 hd2 (by decide)
    · simp at hmem

/-- C6: every candidate key absent from the source is listed among the
extra keys; when extra keys exist the single recorded warning lists them,
and that message is not an error; without extra keys no warning is
recorded; after validation the candidate retains only source keys, and
its value at every source key is unchanged. -/
theorem c6_extra_key_frame (tr src : JMap) (lang : String) :
    (∀ k, k ∈ JMap.keys tr → k ∉ JMap.keys src → k ∈ extraList tr src) ∧
    (extraList tr src ≠ [] →
      (validate tr src lang).warnings = [extraKeysMsg (extraList tr src)]) ∧
    (extraList tr src = [] → (validate tr src lang).warnings = []) ∧
    (extraKeysMsg (extraList tr src) ∉ (validate tr src lang).errors) ∧
    (∀ k, k ∈ JMap.keys (validate tr src lang).translated → k ∈ JMap.keys src) ∧
    (∀ k, k ∈ JMap.keys src →
      JMap.find (validate tr src lang).translated k = JMap.find tr k) := by
  refine ⟨?_, ?_, ?_, extraKeysMsg_not_error tr src lang _, ?_, ?_⟩
  · intro k hk hnk
    unfold extraList
    rw [List.mem_filter]
    refine ⟨hk, ?_⟩
    simp only [Bool.not_eq_true']
    rw [Bool.eq_false_iff]
    intro hc
    exact hnk (List.elem_iff.1 hc)
  · intro h
    rw [validate_warnings]
    rw [if_neg ?_]
    intro hc
    exact h (List.isEmpty_iff.1 hc)
  · intro h
    rw [validate_warnings, h]
    rfl
  · intro k hk
    have htr : (validate tr src lang).translated = deleteExtras tr src := rfl
    rw [htr] at hk
    unfold deleteExtras at hk
    simp only [JMap.keys, List.mem_map] at hk
    obtain ⟨kv, hkv, hfst⟩ := hk
    rw [List.mem_filter] at hkv
    rw [← hfst]
    exact List.elem_iff.1 hkv.2
  · intro k hk
    have htr : (validate tr src lang).translated = deleteExtras tr src := rfl
    rw [htr]
    exact find_deleteExtras tr src k hk

/-- C6 witness: a candidate with the extra key "zzz" over a one-key
source. -/
theorem c6_extra_key_frame_witness :
    ("zzz" ∈ JMap.keys [("a", JValue.str "x"), ("zzz", JValue.str "y")] ∧
     "zzz" ∉ JMap.keys [("a", JValue.str "s")] ∧
     "zzz" ∈ extraList [("a", JValue.str "x"), ("zzz", JValue.str "y")]
       [("a", JValue.str "s")]) ∧
    (extraList [("a", JValue.str "x"), ("zzz", JValue.str "y")]
       [("a", JValue.str "s")] ≠ [] ∧
     (validate [("a", JValue.str "x"), ("zzz", JValue.str "y")]
        [("a", JValue.str "s")] "pl").warnings =
       [extraKeysMsg (extraList [("a", JValue.str "x"), ("zzz", JValue.str "y")]
         [("a", JValue.str "s")])]) ∧
    ("a" ∈ JMap.keys [("a", JValue.str "s")] ∧
     JMap.find (validate [("a", JValue.str "x"), ("zzz", JValue.str "y")]
         [("a", JValue.str "s")] "pl").translated "a" =
       JMap.find [("a", JValue.str "x"), ("zzz", JValue.str "y")] "a") := by
  have h := c6_extra_key_frame [("a", JValue.str "x"), ("zzz", JValue.str "y")]
    [("a", JValue.str "s")] "pl"
  refine ⟨⟨by decide, by decide, h.1 "zzz" (by decide) (by decide)⟩,
    ⟨by decide, h.2.1 (by decide)⟩,
    ⟨by decide, h.2.2.2.2.2 "a" (by decide)⟩⟩

-- ── claim C8: quote-normalization idempotence ───────────

/-- A quote-free input has no pair scan. -/
theorem pairScan_none_of_no_quote : ∀ cs, '"' ∉ cs → pairScan cs = none := by
  intro cs
  induction cs with
  | nil => intro _; rfl
  | cons c r ih =>
    intro h
    simp only [List.mem_cons, not_or] at h
    simp only [pairScan]
    rw [if_neg (fun hc => h.1 hc.symm)]
    rw [ih h.2]

/-- A failed pair scan means the input is quote-free. -/
theorem no_quote_of_pairScan_none : ∀ cs, pairScan cs = none → '"' ∉ cs := by
  intro cs
  induction cs with
  | nil => intro _; simp
  | cons c r ih =>
    intro h
    simp only [pairScan] at h
    split at h
    · simp at h
    · rename_i hq
      cases hps : pairScan r with
      | some v => rw [hps] at h; simp at h
      | none =>
        simp only [List.mem_cons, not_or]
        exact ⟨fun hc => hq hc.symm, ih hps⟩

/-- The pair replacement leaves a quote-free input unchanged. -/
theorem pairRep_no_quote (o c : List Char) : ∀ cs, '"' ∉ cs → pairRep o c cs = cs := by
  intro cs
  induction cs with
  | nil => intro _; rw [pairRep]
  | cons c0 rest ih =>
    intro h
    simp only [List.mem_cons, not_or] at h
    rw [pairRep]
    rw [if_neg (fun hc => h.1 hc.symm)]
    rw [ih h.2]

/-- After the pair replacement at most one straight quote (the unmatched
final one) remains. -/
theorem count_pairRep_le_one (o c : List Char) (ho : '"' ∉ o) (hc : '"' ∉ c) :
    ∀ n cs, cs.length ≤ n → (pairRep o c cs).count '"' ≤ 1 := by
  intro n
  induction n with
  | zero =>
    intro cs hlen
    cases cs with
    | nil => rw [pairRep]; simp
    | cons c0 rest => simp at hlen
  | succ n ih =>
    intro cs hlen
    cases cs with
    | nil => rw [pairRep]; simp
    | cons c0 rest =>
      simp only [List.length_cons] at hlen
      by_cases h0 : c0 = '"'
      · rw [pairRep, if_pos h0]
        split
        · rename_i content rest2 hps
          have hsh := pairScan_shape rest content rest2 hps
          have hlt := pairScan_lt rest content rest2 hps
          simp only [List.count_append]
          rw [List.count_eq_zero.2 ho, List.count_eq_zero.2 hc,
            List.count_eq_zero.2 hsh.2]
          have := ih rest2 (by omega)
          omega
        · rename_i hps
          have hnq := no_quote_of_pairScan_none rest hps
          rw [pairRep_no_quote o c rest hnq]
          simp only [List.count_cons]
          rw [List.count_eq_zero.2 hnq]
          split <;> omega
      · rw [pairRep, if_neg h0]
        simp only [List.count_cons]
        have hb : (c0 == '"') = false := by simp [h0]
        rw [hb]
        have := ih rest (by omega)
        simp only [Bool.false_eq_true, if_false]
        omega

/-- The pair replacement leaves an input with at most one straight quote
unchanged. -/
theorem pairRep_of_count_le_one (o c : List Char) :
    ∀ cs, cs.count '"' ≤ 1 → pairRep o c cs = cs := by
  intro cs
  induction cs with
  | nil => intro _; rw [pairRep]
  | cons c0 rest ih =>
    intro h
    simp only [List.count_cons] at h
    by_cases h0 : c0 = '"'
    · have hb : (c0 == '"') = true := by simp [h0]
      rw [hb] at h
      simp only [if_true] at h
      have hz : rest.count '"' = 0 := by omega
      have hnq : '"' ∉ rest := List.count_eq_zero.1 hz
      rw [pairRep, if_pos h0]
      split
      · rename_i content rest2 hps
        exact absurd hps (by rw [pairScan_none_of_no_quote rest hnq]; simp)
      · rw [pairRep_no_quote o c rest hnq, h0]
    · have hb : (c0 == '"') = false := by simp [h0]
      rw [hb] at h
      simp only [Bool.false_eq_true, if_false, Nat.add_zero] at h
      rw [pairRep, if_neg h0, ih h]

/-- No `„` in the input is followed by a half-pair match: under this
condition the half-pair repair leaves the input unchanged. -/
def noHalfB : List Char → Bool
  | [] => true
  | c :: r => (if c = '„' then (halfScan r).isNone else true) && noHalfB r

/-- The half-pair repair is the identity on inputs without half-pair
matches. -/
theorem halfRep_of_noHalfB (cq : List Char) :
    ∀ cs, noHalfB cs = true → halfRep cq cs = cs := by
  intro cs
  induction cs with
  | nil => intro _; rw [halfRep]
  | cons c0 rest ih =>
    intro h
    simp only [noHalfB, Bool.and_eq_true] at h
    obtain ⟨h1, h2⟩ := h
    by_cases hc : c0 = '„'
    · rw [if_pos hc] at h1
      have hnone : halfScan rest = none := Option.isNone_iff_eq_none.1 h1
      rw [halfRep, if_pos hc]
      split
      · rename_i content rest2 hps
        rw [hnone] at hps
        exact absurd hps (by simp)
      · rw [ih h2]
    · rw [halfRep, if_neg hc, ih h2]

/-- A half scan fails on any text whose quote-free prefix is closed by a
typographic closing quote. -/
theorem halfScan_blocked (b : Char) (hb : b = '”' ∨ b = '“') :
    ∀ a w2, '"' ∉ a → halfScan (a ++ b :: w2) = none := by
  have hbq : ¬ (b = '"') := by rcases hb with h | h <;> subst h <;> decide
  intro a
  induction a with
  | nil =>
    intro w2 _
    simp only [List.nil_append, halfScan]
    rw [if_neg hbq, if_pos hb]
  | cons x a2 ih =>
    intro w2 hq
    simp only [List.mem_cons, not_or] at hq
    simp only [List.cons_append, halfScan]
    rw [if_neg (fun hc => hq.1 hc.symm)]
    by_cases hxb : x = '”' ∨ x = '“'
    · rw [if_pos hxb]
    · rw [if_neg hxb]
      simp only [List.append_eq]
      rw [ih w2 hq.2]

/-- The half-pair repair preserves a failing half scan. -/
theorem halfScan_halfRep_none (cq : List Char) :
    ∀ cs, halfScan cs = none → halfScan (halfRep cq cs) = none := by
  intro cs
  induction cs with
  | nil => intro _; rw [halfRep]; rfl
  | cons c0 rest ih =>
    intro h
    simp only [halfScan] at h
    split at h
    · simp at h
    · rename_i hq
      split at h
      · rename_i hbl
        have hc0 : ¬ (c0 = '„') := by
          rcases hbl with hb | hb <;> subst hb <;> decide
        rw [halfRep, if_neg hc0]
        simp only [halfScan]
        rw [if_neg hq, if_pos hbl]
      · rename_i hbl
        have hrest : halfScan rest = none := by
          cases hps : halfScan rest with
          | none => rfl
          | some v => obtain ⟨co, r2⟩ := v; rw [hps] at h; simp at h
        by_cases hc0 : c0 = '„'
        · rw [halfRep, if_pos hc0]
          split
          · rename_i content rest2 hps
            rw [hrest] at hps
            exact absurd hps (by simp)
          · simp only [halfScan]
            rw [if_neg hq, if_neg hbl, ih hrest]
        · rw [halfRep, if_neg hc0]
          simp only [halfScan]
          rw [if_neg hq, if_neg hbl, ih hrest]

/-- A quote-free prefix closed by a typographic closing quote prepends
harmlessly to a half-match-free tail. -/
theorem noHalfB_append_blocked (b : Char) (hb : b = '”' ∨ b = '“') :
    ∀ content T, '"' ∉ content → noHalfB T = true →
      noHalfB (content ++ b :: T) = true := by
  have hbne : ¬ (b = '„') := by rcases hb with h | h <;> subst h <;> decide
  intro content
  induction content with
  | nil =>
    intro T _ hT
    simp only [List.nil_append, noHalfB, Bool.and_eq_true]
    exact ⟨by rw [if_neg hbne], hT⟩
  | cons x c2 ih =>
    intro T hq hT
    simp only [List.mem_cons, not_or] at hq
    simp only [List.cons_append, noHalfB, Bool.and_eq_true]
    refine ⟨?_, ih T hq.2 hT⟩
    by_cases hx : x = '„'
    · rw [if_pos hx]
      simp only [List.append_eq]
      rw [halfScan_blocked b hb c2 T hq.2]
      rfl
    · rw [if_neg hx]

/-- Half-match freedom restricts to suffixes. -/
theorem noHalfB_suffix : ∀ a d, noHalfB (a ++ d) = true → noHalfB d = true := by
  intro a
  induction a with
  | nil => intro d h; exact h
  | cons x a2 ih =>
    intro d h
    simp only [List.cons_append, noHalfB, Bool.and_eq_true] at h
    exact ih d h.2

/-- The half-pair repair produces a half-match-free result. -/
theorem noHalfB_halfRep (b : Char) (hb : b = '”' ∨ b = '“') :
    ∀ n cs, cs.length ≤ n → noHalfB (halfRep [b] cs) = true := by
  intro n
  induction n with
  | zero =>
    intro cs hlen
    cases cs with
    | nil => rw [halfRep]; rfl
    | cons c0 rest => simp at hlen
  | succ n ih =>
    intro cs hlen
    cases cs with
    | nil => rw [halfRep]; rfl
    | cons c0 rest =>
      simp only [List.length_cons] at hlen
      by_cases hc : c0 = '„'
      · rw [halfRep, if_pos hc]
        split
        · rename_i content rest2 hps
          have hsh := halfScan_shape rest content rest2 hps
          have hlt := halfScan_lt rest content rest2 hps
          have hcq : '"' ∉ content := by
            intro hx
            exact (hsh.2 '"' hx).1 rfl
          have hT := ih rest2 (by omega)
          simp only [noHalfB, Bool.and_eq_true]
          constructor
          · rw [if_pos trivial]
            have : content ++ [b] ++ halfRep [b] rest2 =
                content ++ b :: halfRep [b] rest2 := by
              simp [List.append_assoc]
            rw [this, halfScan_blocked b hb content _ hcq]
            rfl
          · have : content ++ [b] ++ halfRep [b] rest2 =
                content ++ b :: halfRep [b] rest2 := by
              simp [List.append_assoc]
            rw [this]
            exact noHalfB_append_blocked b hb content _ hcq hT
        · rename_i hps
          simp only [noHalfB, Bool.and_eq_true]
          refine ⟨?_, ih rest (by omega)⟩
          rw [if_pos hc, halfScan_halfRep_none [b] rest hps]
          rfl
      · rw [halfRep, if_neg hc]
        simp only [noHalfB, Bool.and_eq_true]
        refine ⟨?_, ih rest (by omega)⟩
        rw [if_neg hc]

/-- The pair replacement with typographic output preserves a failing half
scan. -/
theorem halfScan_pairRep_none (b : Char) (hb : b = '”' ∨ b = '“') :
    ∀ cs, halfScan cs = none → halfScan (pairRep ['„'] [b] cs) = none := by
  intro cs
  induction cs with
  | nil => intro _; rw [pairRep]; rfl
  | cons c0 rest ih =>
    intro h
    simp only [halfScan] at h
    split at h
    · simp at h
    · rename_i hq
      split at h
      · rename_i hbl
        rw [pairRep, if_neg (fun hc => hq hc)]
        simp only [halfScan]
        rw [if_neg hq, if_pos hbl]
      · rename_i hbl
        have hrest : halfScan rest = none := by
          cases hps : halfScan rest with
          | none => rfl
          | some v => obtain ⟨co, r2⟩ := v; rw [hps] at h; simp at h
        rw [pairRep, if_neg (fun hc => hq hc)]
        simp only [halfScan]
        rw [if_neg hq, if_neg hbl, ih hrest]

/-- The pair replacement with typographic output preserves half-match
freedom. -/
theorem noHalfB_pairRep (b : Char) (hb : b = '”' ∨ b = '“') :
    ∀ n cs, cs.length ≤ n → noHalfB cs = true →
      noHalfB (pairRep ['„'] [b] cs) = true := by
  intro n
  induction n with
  | zero =>
    intro cs hlen _
    cases cs with
    | nil => rw [pairRep]; rfl
    | cons c0 rest => simp at hlen
  | succ n ih =>
    intro cs hlen h
    cases cs with
    | nil => rw [pairRep]; rfl
    | cons c0 rest =>
      simp only [List.length_cons] at hlen
      simp only [noHalfB, Bool.and_eq_true] at h
      obtain ⟨h1, h2⟩ := h
      by_cases h0 : c0 = '"'
      · rw [pairRep, if_pos h0]
        split
        · rename_i content rest2 hps
          have hsh := pairScan_shape rest content rest2 hps
          have hlt := pairScan_lt rest content rest2 hps
          have hT : noHalfB (pairRep ['„'] [b] rest2) = true := by
            apply ih rest2 (by omega)
            have := noHalfB_suffix content _ (hsh.1 ▸ h2)
            simp only [noHalfB, Bool.and_eq_true] at this
            exact this.2
          have hre : ['„'] ++ content ++ [b] ++ pairRep ['„'] [b] rest2 =
              '„' :: (content ++ b :: pairRep ['„'] [b] rest2) := by
            simp [List.append_assoc]
          rw [hre]
          simp only [noHalfB, Bool.and_eq_true]
          constructor
          · rw [if_pos trivial, halfScan_blocked b hb content _ hsh.2]
            rfl
          · exact noHalfB_append_blocked b hb content _ hsh.2 hT
        · rename_i hps
          simp only [noHalfB, Bool.and_eq_true]
          have h0ne : ¬ (c0 = '„') := by rw [h0]; decide
          refine ⟨by rw [if_neg h0ne], ih rest (by omega) h2⟩
      · rw [pairRep, if_neg h0]
        simp only [noHalfB, Bool.and_eq_true]
        refine ⟨?_, ih rest (by omega) h2⟩
        by_cases hc : c0 = '„'
        · rw [if_pos hc] at h1 ⊢
          rw [halfScan_pairRep_none b hb rest (Option.isNone_iff_eq_none.1 h1)]
          rfl
        · rw [if_neg hc]

/-- A successful lookup in the quote table yields one of its entries. -/
theorem lookup_mem_triple (l : List (String × String × String)) :
    ∀ k pr, l.lookup k = some pr → (k, pr) ∈ l := by
  intro k pr
  induction l with
  | nil => intro h; simp [List.lookup] at h
  | cons kv rest ih =>
    obtain ⟨k1, pr1⟩ := kv
    intro h
    rw [List.lookup_cons] at h
    split at h
    · rename_i hk
      injection h with h
      subst h
      have : k = k1 := beq_iff_eq.1 hk
      subst this
      exact List.mem_cons_self _ _
    · exact List.mem_cons_of_mem _ (ih h)

/-- C8: for every language code with an entry in the typographic-quote
table, `normalizeQuotes` is idempotent. -/
theorem c8_normalize_quotes_idempotent (lang o c : String)
    (hlk : TYPOGRAPHIC_QUOTES.lookup lang = some (o, c)) (s : String) :
    normalizeQuotes (normalizeQuotes s lang) lang = normalizeQuotes s lang := by
  have hmem : (lang, (o, c)) ∈ TYPOGRAPHIC_QUOTES := lookup_mem_triple _ _ _ hlk
  have hq : '"' ∉ o.data ∧ '"' ∉ c.data := by
    have hall : ∀ p ∈ TYPOGRAPHIC_QUOTES, '"' ∉ p.2.1.data ∧ '"' ∉ p.2.2.data := by
      decide
    exact hall _ hmem
  unfold normalizeQuotes
  rw [hlk]
  simp only
  by_cases ho : o = "„"
  · obtain ⟨b, hcb, hbb⟩ : ∃ b, c.data = [b] ∧ (b = '”' ∨ b = '“') := by
      have hall : ∀ p ∈ TYPOGRAPHIC_QUOTES, p.2.1 = "„" →
          p.2.2.data = ['”'] ∨ p.2.2.data = ['“'] := by decide
      rcases hall _ hmem ho with h | h
      · exact ⟨'”', h, Or.inl rfl⟩
      · exact ⟨'“', h, Or.inr rfl⟩
    have hbq : '"' ∉ [b] := by rcases hbb with h | h <;> subst h <;> decide
    rw [if_pos ho, if_pos ho]
    subst ho
    have hod : ("„" : String).data = ['„'] := by decide
    rw [hod, hcb]
    congr 1
    have h5 := noHalfB_halfRep b hbb s.data.length s.data (Nat.le_refl _)
    have h6 := noHalfB_pairRep b hbb (halfRep [b] s.data).length
      (halfRep [b] s.data) (Nat.le_refl _) h5
    rw [halfRep_of_noHalfB [b] _ h6]
    exact pairRep_of_count_le_one ['„'] [b] _
      (count_pairRep_le_one ['„'] [b] (by decide) hbq
        (halfRep [b] s.data).length (halfRep [b] s.data) (Nat.le_refl _))
  · rw [if_neg ho, if_neg ho]
    congr 1
    exact pairRep_of_count_le_one o.data c.data _
      (count_pairRep_le_one o.data c.data hq.1 hq.2 s.data.length s.data (Nat.le_refl _))

/-- C8 witness: the Polish pair on a concrete string with one full quoted
segment. -/
theorem c8_normalize_quotes_idempotent_witness :
    TYPOGRAPHIC_QUOTES.lookup "pl" = some ("„", "”") ∧
    normalizeQuotes (normalizeQuotes "a \"b\" c" "pl") "pl" =
      normalizeQuotes "a \"b\" c" "pl" :=
  ⟨by decide, c8_normalize_quotes_idempotent "pl" "„" "”" (by decide) "a \"b\" c"⟩
